import Mathlib

/-!
Verification development for the tech-support-chat application (`src/app.py`).

The program is a Qt chat window around a single blocking subprocess call.
This file gives a shallow embedding of its pure core:

* `markdown_to_html` — the markdown renderer (`app.py` lines 100-162),
  working over `List Char` with Python regex semantics spelled out
  (`re.sub` with lazy `(.+?)` groups, `str.splitlines`, anchored
  line matches for list items);
* `modelWorkerRun` — the body of `ModelWorker.run` (`app.py` lines 68-96),
  with the external `subprocess.run` call abstracted into a
  `SubprocessResult` and the `json.loads(f'"{output}"')` unescaping step
  modelled by a faithful JSON string-literal parser;
* `ChatState` / `step` — the UI state touched by the controller and the
  presentation state machine (`ChatWindow`), with the Qt timers modelled as
  boolean "active" flags and timer ticks / worker callbacks as events.

Unicode notes: Python's `str.lower` is modelled by ASCII `Char.toLower`
(all configured bot names are ASCII), and the regex class `\d` by ASCII
`Char.isDigit`; `\s` and `str.strip` use the full CPython whitespace set.
-/

/-! ### Small string utilities (Python semantics) -/

/-- Characters matched by CPython's `str.strip()` / regex `\s` (`re.UNICODE`). -/
def isPySpace (c : Char) : Bool :=
  c ∈ [' ', '\t', '\n', '\r', '\x0b', '\x0c',
       '\x1c', '\x1d', '\x1e', '\x1f', '\x85', '\xa0',
       '\u1680', '\u2000', '\u2001', '\u2002', '\u2003', '\u2004', '\u2005',
       '\u2006', '\u2007', '\u2008', '\u2009', '\u200a',
       '\u2028', '\u2029', '\u202f', '\u205f', '\u3000']

/-- Python `str.strip()`: drop leading and trailing whitespace. -/
def pyStrip (l : List Char) : List Char :=
  ((l.dropWhile isPySpace).reverse.dropWhile isPySpace).reverse

/-- Python `str.lower()`, restricted to ASCII case folding. -/
def pyLowerList (l : List Char) : List Char :=
  l.map Char.toLower

/-- Decides whether `pat` occurs at the start of `s`. -/
def startsWithList : List Char → List Char → Bool
  | [], _ => true
  | _ :: _, [] => false
  | p :: ps, s :: ss => p = s && startsWithList ps ss

/-- Decides whether `pat` occurs somewhere inside `s`. -/
def containsSub (pat : List Char) : List Char → Bool
  | [] => startsWithList pat []
  | c :: rest => startsWithList pat (c :: rest) || containsSub pat rest

/-- Index of the first occurrence of `pat` inside `s`, if any. -/
def subIndex (pat : List Char) : List Char → Option Nat
  | [] => if startsWithList pat [] then some 0 else none
  | c :: rest =>
      if startsWithList pat (c :: rest) then some 0
      else (subIndex pat rest).map (fun n => n + 1)

/-- Replace every occurrence of the character `c` by the string `r`
(Python `str.replace` with a single-character needle). -/
def replaceChar (c : Char) (r : List Char) : List Char → List Char
  | [] => []
  | x :: xs => (if x = c then r else [x]) ++ replaceChar c r xs

/-- Join a list of strings with a separator (Python `sep.join(...)`). -/
def joinSep (sep : List Char) : List (List Char) → List Char
  | [] => []
  | [x] => x
  | x :: xs => x ++ sep ++ joinSep sep xs

/-! ### The markdown renderer, `markdown_to_html` (`app.py` 100-162) -/

/-- The three sequential `str.replace` calls of `app.py` lines 112-114. -/
def escapeHtml (l : List Char) : List Char :=
  replaceChar '>' "&gt;".data (replaceChar '<' "&lt;".data
    (replaceChar '&' "&amp;".data l))

/-- Scanner for the lazy group of `re.sub(r'X(.+?)X', ...)` where `X` is the
single delimiter character `stop` (a backtick or an asterisk).  Having just
passed an opening delimiter, it accumulates group characters (at least one;
`.` does not match a newline) and closes at the first later delimiter,
returning the group and the text after the closing delimiter. -/
def scanDelim (stop : Char) : List Char → List Char → Option (List Char × List Char)
  | _, [] => none
  | acc, c :: rest =>
      if c = '\n' then none
      else if c = stop ∧ acc ≠ [] then some (acc.reverse, rest)
      else scanDelim stop (c :: acc) rest

/-- One pass of `re.sub(r'X(.+?)X', openT ++ group ++ closeT, text)` for a
single-character delimiter, written with explicit fuel (the wrappers below
always supply `l.length`, which is always enough). On a failed match the
scan resumes right after the unmatched opening delimiter, as `re.sub` does. -/
def subDelimF (stop : Char) (openT closeT : List Char) : Nat → List Char → List Char
  | 0, l => l
  | _ + 1, [] => []
  | fuel + 1, c :: rest =>
      if c = stop then
        match scanDelim stop [] rest with
        | some (content, rest2) =>
            openT ++ content ++ closeT ++ subDelimF stop openT closeT fuel rest2
        | none => c :: subDelimF stop openT closeT fuel rest
      else c :: subDelimF stop openT closeT fuel rest

/-- `re.sub(r'`(.+?)`', r'<code>\1</code>', text)` (`app.py` line 117). -/
def subCode (l : List Char) : List Char :=
  subDelimF '`' "<code>".data "</code>".data l.length l

/-- `re.sub(r'\*(.+?)\*', r'<i>\1</i>', text)` (`app.py` line 123). -/
def subItal (l : List Char) : List Char :=
  subDelimF '*' "<i>".data "</i>".data l.length l

/-- Scanner for the lazy group of `re.sub(r'\*\*(.+?)\*\*', ...)`: having
passed an opening `**`, accumulate at least one non-newline character and
close at the first following `**`. -/
def scanBold : List Char → List Char → Option (List Char × List Char)
  | _, [] => none
  | _, [_] => none
  | acc, c1 :: c2 :: rest =>
      if c1 = '*' ∧ c2 = '*' ∧ acc ≠ [] then some (acc.reverse, rest)
      else if c1 = '\n' then none
      else scanBold (c1 :: acc) (c2 :: rest)

/-- `re.sub(r'\*\*(.+?)\*\*', r'<b>\1</b>', text)` (`app.py` line 120),
with explicit fuel like `subDelimF`. -/
def subBoldF : Nat → List Char → List Char
  | 0, l => l
  | _ + 1, [] => []
  | _ + 1, [c] => [c]
  | fuel + 1, c1 :: c2 :: rest =>
      if c1 = '*' ∧ c2 = '*' then
        match scanBold [] rest with
        | some (content, rest2) =>
            "<b>".data ++ content ++ "</b>".data ++ subBoldF fuel rest2
        | none => c1 :: subBoldF fuel (c2 :: rest)
      else c1 :: subBoldF fuel (c2 :: rest)

/-- The bold substitution at its canonical fuel. -/
def subBold (l : List Char) : List Char :=
  subBoldF l.length l

/-- Line-break characters recognised by Python `str.splitlines`
(`\r\n` is additionally treated as a single break by `splitlines` below). -/
def isLineBreakChar (c : Char) : Bool :=
  c ∈ ['\n', '\r', '\x0b', '\x0c', '\x1c', '\x1d', '\x1e',
       '\x85', '\u2028', '\u2029']

/-- Python `str.splitlines()` (`app.py` line 126): terminators are dropped,
a trailing terminator does not produce an extra empty line. -/
def splitlines : List Char → List (List Char)
  | [] => []
  | '\r' :: '\n' :: rest => [] :: splitlines rest
  | c :: rest =>
      if isLineBreakChar c then [] :: splitlines rest
      else
        match splitlines rest with
        | [] => [[c]]
        | line :: ls => (c :: line) :: ls

/-- `li_ul_re.match(line)` for `li_ul_re = re.compile(r'^\s*[-\*]\s+(.*)')`
(`app.py` line 130): optional whitespace, a `-` or `*` marker, at least one
whitespace character, then the captured rest of the line. -/
def matchBullet (line : List Char) : Option (List Char) :=
  match line.dropWhile isPySpace with
  | [] => none
  | c :: rest =>
      if c = '-' ∨ c = '*' then
        if (rest.takeWhile isPySpace).isEmpty then none
        else some (rest.dropWhile isPySpace)
      else none

/-- `li_ol_re.match(line)` for `li_ol_re = re.compile(r'^\s*\d+\.\s+(.*)')`
(`app.py` line 131), with `\d` as ASCII digits. -/
def matchNumbered (line : List Char) : Option (List Char) :=
  let l1 := line.dropWhile isPySpace
  if (l1.takeWhile Char.isDigit).isEmpty then none
  else
    match l1.dropWhile Char.isDigit with
    | [] => none
    | c :: rest2 =>
        if c = '.' then
          if (rest2.takeWhile isPySpace).isEmpty then none
          else some (rest2.dropWhile isPySpace)
        else none

/-- The literal `<ul ...>` opener emitted at `app.py` line 137. -/
def ulOpenTag : List Char :=
  "<ul style=\x27margin:6px 0 6px 18px;padding:0;\x27>".data

/-- The literal `<ol ...>` opener emitted at `app.py` line 143. -/
def olOpenTag : List Char :=
  "<ol style=\x27margin:6px 0 6px 18px;padding:0;\x27>".data

/-- Wrap a captured list item, `f"<li>{group}</li>"`. -/
def liWrap (cap : List Char) : List Char :=
  "<li>".data ++ cap ++ "</li>".data

/-- The line loop of `app.py` lines 132-159, carrying the `in_ul` / `in_ol`
flags.  Note that the bullet branch does not close an open `<ol>` and the
numbered branch does not close an open `<ul>`; only a non-list line or the
end of the input closes open lists, exactly as in the source. -/
def processLines : List (List Char) → Bool → Bool → List (List Char)
  | [], inUl, inOl =>
      (if inUl then ["</ul>".data] else []) ++ (if inOl then ["</ol>".data] else [])
  | line :: rest, inUl, inOl =>
      match matchBullet line with
      | some cap =>
          (if inUl then [] else [ulOpenTag]) ++ [liWrap cap] ++ processLines rest true inOl
      | none =>
          match matchNumbered line with
          | some cap =>
              (if inOl then [] else [olOpenTag]) ++ [liWrap cap] ++ processLines rest inUl true
          | none =>
              (if inUl then ["</ul>".data] else []) ++ (if inOl then ["</ol>".data] else [])
                ++ [line] ++ processLines rest false false

/-- `markdown_to_html` (`app.py` lines 100-162): escape `&`, `<`, `>`,
then inline code, then bold, then italic, then the per-line list pass,
finally joining the produced lines with `<br>`. -/
def markdown_to_html (text : List Char) : List Char :=
  if text.isEmpty then []
  else
    joinSep "<br>".data
      (processLines (splitlines (subItal (subBold (subCode (escapeHtml text))))) false false)

/-! ### The model worker, `ModelWorker.run` (`app.py` 60-96) -/

/-- The system instruction `PROMPT` (`app.py` lines 45-52). -/
def PROMPT : List Char :=
  ("You are a tech support agent.\nYour job:\n- Help users with technical issues they have.\n- If they have any questions about how to do something, tell them step by step how to do it.\n- Don\x27t give any harmful or illegal advice.\n\nFormat your response in plain text. Keep it short and conversational.\n").data

/-- Value of a hexadecimal digit. -/
def hexVal (c : Char) : Option Nat :=
  if '0' ≤ c ∧ c ≤ '9' then some (c.toNat - '0'.toNat)
  else if 'a' ≤ c ∧ c ≤ 'f' then some (c.toNat - 'a'.toNat + 10)
  else if 'A' ≤ c ∧ c ≤ 'F' then some (c.toNat - 'A'.toNat + 10)
  else none

/-- The single-character JSON string escapes. -/
def jsonSimpleEscape (e : Char) : Option Char :=
  if e = '"' then some '"'
  else if e = '\\' then some '\\'
  else if e = '/' then some '/'
  else if e = 'b' then some '\x08'
  else if e = 'f' then some '\x0c'
  else if e = 'n' then some '\n'
  else if e = 'r' then some '\r'
  else if e = 't' then some '\t'
  else none

/-- CPython's strict JSON string-literal scanner, positioned just after the
opening quote: returns the decoded contents and the text after the closing
quote, or `none` where `json.loads` raises `ValueError` (unterminated
string, raw control character, bad escape, bad `\uXXXX`, ...).  One
divergence: CPython keeps a lone UTF-16 surrogate from `\uXXXX` in the
decoded `str`, which a Lean `Char` cannot represent, so this scanner
rejects lone surrogates (properly paired surrogates are combined as in
CPython). -/
def jsonStringScan : List Char → Option (List Char × List Char)
  | [] => none
  | c :: rest =>
      if c = '"' then some ([], rest)
      else if c = '\\' then
        match rest with
        | [] => none
        | e :: rest2 =>
            if e = 'u' then
              match rest2 with
              | h1 :: h2 :: h3 :: h4 :: rest3 =>
                  match hexVal h1, hexVal h2, hexVal h3, hexVal h4 with
                  | some a, some b, some c3, some d =>
                      let code := ((a * 16 + b) * 16 + c3) * 16 + d
                      if 0xD800 ≤ code ∧ code ≤ 0xDBFF then
                        match rest3 with
                        | '\\' :: 'u' :: k1 :: k2 :: k3 :: k4 :: rest4 =>
                            match hexVal k1, hexVal k2, hexVal k3, hexVal k4 with
                            | some a2, some b2, some c2, some d2 =>
                                let code2 := ((a2 * 16 + b2) * 16 + c2) * 16 + d2
                                if 0xDC00 ≤ code2 ∧ code2 ≤ 0xDFFF then
                                  (jsonStringScan rest4).map (fun p =>
                                    (Char.ofNat (0x10000 + (code - 0xD800) * 0x400 + (code2 - 0xDC00)) :: p.1, p.2))
                                else none
                            | _, _, _, _ => none
                        | _ => none
                      else if 0xDC00 ≤ code ∧ code ≤ 0xDFFF then none
                      else (jsonStringScan rest3).map (fun p => (Char.ofNat code :: p.1, p.2))
                  | _, _, _, _ => none
              | _ => none
            else
              match jsonSimpleEscape e with
              | some ch => (jsonStringScan rest2).map (fun p => (ch :: p.1, p.2))
              | none => none
      else if c.toNat < 0x20 then none
      else (jsonStringScan rest).map (fun p => (c :: p.1, p.2))

/-- JSON inter-token whitespace skipped after a decoded value. -/
def isJsonWs (c : Char) : Bool :=
  c ∈ [' ', '\t', '\n', '\r']

/-- `json.loads(f'"{output}"')` (`app.py` line 81): parse the wrapped text
as one JSON document consisting of a single string literal; anything left
after the closing quote other than whitespace is "Extra data". -/
def jsonLoadsQuoted (output : List Char) : Option (List Char) :=
  match jsonStringScan (output ++ ['"']) with
  | some (content, rest) => if rest.all isJsonWs then some content else none
  | none => none

/-- Fixed configuration of a `ChatWindow`: the randomly drawn `BOT_NAME`
and the two theme colours used when rendering message blocks. -/
structure Config where
  botName : List Char
  botColor : List Char
  userColor : List Char

/-- `full_prompt` as assembled at `app.py` line 71:
`PROMPT + "\n\n" + "\n".join(conversation_history) + f"\n{BOT_NAME}:"`. -/
def buildFullPrompt (cfg : Config) (history : List (List Char)) : List Char :=
  PROMPT ++ "\n\n".data ++ joinSep ['\n'] history ++ '\n' :: (cfg.botName ++ [':'])

/-- Abstract outcome of the `subprocess.run` call (and of any exception
raised inside the `try` block): the process timed out, the executable was
missing, some other exception was raised with the given message, or the
process completed with the given stdout text. -/
inductive SubprocessResult where
  | timeout : SubprocessResult
  | fileNotFound : SubprocessResult
  | otherError : List Char → SubprocessResult
  | ok : List Char → SubprocessResult

/-- A Qt signal emitted by the worker: `result_ready` or `error`. -/
inductive Emission where
  | resultReady : List Char → Emission
  | errorMsg : List Char → Emission
deriving DecidableEq

/-- The body of `ModelWorker.run` (`app.py` lines 68-96), as the list of
signals it emits for a given subprocess outcome: strip the stdout, try the
JSON unescape and fall back to the raw stripped text, report empty output
as an error, and map each exception to its handler's message.  The prompt
the worker pipes into the external process is `buildFullPrompt`; the
`SubprocessResult` argument abstracts the process's reaction to it. -/
def modelWorkerRun : SubprocessResult → List Emission
  | .timeout => [.errorMsg "Error: Model timed out.".data]
  | .fileNotFound =>
      [.errorMsg "Error: \x27ollama\x27 not found. Please install or run Ollama.".data]
  | .otherError e => [.errorMsg ("Error: ".data ++ e)]
  | .ok stdout =>
      let output := pyStrip stdout
      let outputDecoded :=
        match jsonLoadsQuoted output with
        | some d => d
        | none => output
      if outputDecoded.isEmpty then [.errorMsg "Error: Model returned no output.".data]
      else [.resultReady outputDecoded]

/-! ### The chat window state machine (`ChatWindow`, `app.py` 184-655)

Only the state the claims are about is modelled: the message-view list,
the two timers (as "active" booleans plus their bookkeeping fields), the
global `conversation_history`, the enabled/disabled state of the input
surface, and the list of `QMessageBox.warning` notices shown.  Purely
visual calls (`_render_messages`, scrolling, focus, input height) have no
modelled effect. -/

/-- One entry of `self.messages`: a dict with `sender` and `html`. -/
structure Msg where
  sender : List Char
  html : List Char
deriving DecidableEq

/-- The modelled fields of a `ChatWindow`. -/
structure ChatState where
  messages : List Msg
  typingTimerActive : Bool
  typingDots : Nat
  typingMsgIndex : Option Nat
  revealTimerActive : Bool
  revealFullText : List Char
  revealIndex : Nat
  revealMsgIndex : Option Nat
  history : List (List Char)
  inputDisabled : Bool
  sendDisabled : Bool
  notices : List (List Char)
deriving DecidableEq

/-- `_create_message_block` (`app.py` lines 477-486). -/
def createMessageBlock (cfg : Config) (sender inner : List Char) : List Char :=
  let senderColor := if sender = cfg.botName then cfg.botColor else cfg.userColor
  "<div style=\x27margin-top:12px; margin-bottom:12px;\x27>".data
    ++ "<div style=\x27font-weight:700; color:".data ++ senderColor
    ++ "; margin-bottom:4px;\x27>".data ++ sender ++ ":</div>".data
    ++ "<div>".data ++ inner ++ "</div>".data
    ++ "</div>".data

/-- In-place update `self.messages[idx]['html'] = block`. -/
def updateHtmlAt : List Msg → Nat → List Char → List Msg
  | [], _, _ => []
  | m :: ms, 0, h => { m with html := h } :: ms
  | m :: ms, n + 1, h => m :: updateHtmlAt ms n h

/-- The literal (non-interpolated) string `'{BOT_NAME}'` that the fallback
branches of `_advance_dots` and `_reveal_next_char` store as the sender
(`app.py` lines 526 and 562). -/
def literalBotNameBrace : List Char :=
  "\x7bBOT_NAME\x7d".data

/-- `_start_typing_indicator` (`app.py` lines 489-497). -/
def startTypingIndicator (cfg : Config) (s : ChatState) : ChatState :=
  let msgs := s.messages ++ [⟨cfg.botName, createMessageBlock cfg cfg.botName " ".data⟩]
  { s with messages := msgs,
           typingMsgIndex := some (msgs.length - 1),
           typingDots := 0,
           typingTimerActive := true }

/-- `_stop_typing_indicator` (`app.py` lines 499-511): a `None` index
returns early without stopping the timer; otherwise the timer is stopped,
the indicator entry is popped when the index is in range, and the index is
cleared. -/
def stopTypingIndicator (s : ChatState) : ChatState :=
  match s.typingMsgIndex with
  | none => s
  | some idx =>
      { s with typingTimerActive := false,
               messages :=
                 if idx < s.messages.length then s.messages.eraseIdx idx else s.messages,
               typingMsgIndex := none }

/-- `_advance_dots` (`app.py` lines 513-528): one typing-indicator tick. -/
def advanceDots (cfg : Config) (s : ChatState) : ChatState :=
  match s.typingMsgIndex with
  | none => s
  | some idx =>
      let dots := (s.typingDots + 1) % 4
      let inner := "<span style=\x27opacity:0.95;\x27> ".data
        ++ List.replicate dots '.' ++ " </span>".data
      let block := createMessageBlock cfg cfg.botName inner
      if idx < s.messages.length then
        { s with typingDots := dots, messages := updateHtmlAt s.messages idx block }
      else
        { s with typingDots := dots,
                 messages := s.messages ++ [⟨literalBotNameBrace, block⟩],
                 typingMsgIndex := some s.messages.length }

/-- `_start_reveal` (`app.py` lines 531-543).  (The `html_safe` local of
line 533 is computed and never used in the source, so it has no modelled
effect.) -/
def startReveal (cfg : Config) (s : ChatState) (text : List Char) : ChatState :=
  { s with revealFullText := text,
           revealIndex := 0,
           messages := s.messages ++ [⟨cfg.botName, createMessageBlock cfg cfg.botName []⟩],
           revealMsgIndex := some s.messages.length,
           revealTimerActive := true }

/-- `_reveal_next_char` (`app.py` lines 545-564): one reveal tick.  When
the whole text is revealed the timer is stopped and the reveal state
cleared; otherwise one more character is revealed and the placeholder's
html is rebuilt from the markdown rendering of the longer partial text.
(When `reveal_msg_index` is `None` and text remains, CPython would raise a
`TypeError` at the range test; that state is unreachable through the
events modelled below, and is mapped to the same fallback append as an
out-of-range index.) -/
def revealNextChar (cfg : Config) (s : ChatState) : ChatState :=
  if s.revealFullText.length ≤ s.revealIndex then
    { s with revealTimerActive := false,
             revealFullText := [],
             revealIndex := 0,
             revealMsgIndex := none }
  else
    let i := s.revealIndex + 1
    let block := createMessageBlock cfg cfg.botName
      (markdown_to_html (s.revealFullText.take i))
    match s.revealMsgIndex with
    | some idx =>
        if idx < s.messages.length then
          { s with revealIndex := i, messages := updateHtmlAt s.messages idx block }
        else
          { s with revealIndex := i,
                   messages := s.messages ++ [⟨literalBotNameBrace, block⟩],
                   revealMsgIndex := some s.messages.length }
    | none =>
        { s with revealIndex := i,
                 messages := s.messages ++ [⟨literalBotNameBrace, block⟩],
                 revealMsgIndex := some s.messages.length }

/-- Everything of `text` after its first `:`, if it has one
(`text.split(":", 1)[1]`). -/
def afterFirstColonOpt : List Char → Option (List Char)
  | [] => none
  | c :: rest => if c = ':' then some rest else afterFirstColonOpt rest

/-- The label-stripping step of `display_response` (`app.py` lines
620-622): when the stripped, lowered response starts with the lowered bot
name followed by `:`, keep only the stripped text after the first colon of
the original response.  (The guard implies a colon exists, so the `none`
branch of the split is unreachable; it returns the text unchanged.) -/
def stripBotLabelText (botName text : List Char) : List Char :=
  if startsWithList (pyLowerList botName ++ [':']) (pyLowerList (pyStrip text)) then
    match afterFirstColonOpt text with
    | some rest => pyStrip rest
    | none => text
  else text

/-- `send_message` (`app.py` lines 588-614): a blank submission is a
no-op; otherwise append the user turn to `conversation_history` and to the
message view, clear and disable the input surface, and start the typing
indicator.  (Starting the `ModelWorker` has no further modelled effect;
its completion arrives as a separate event.) -/
def sendMessage (cfg : Config) (s : ChatState) (raw : List Char) : ChatState :=
  let userInput := pyStrip raw
  if userInput.isEmpty then s
  else
    let s1 := { s with history := s.history ++ ["User: ".data ++ userInput] }
    let userHtml := markdown_to_html userInput
    let s2 := { s1 with
      messages := s1.messages ++ [Msg.mk "You".data (createMessageBlock cfg "You".data userHtml)] }
    let s3 := { s2 with inputDisabled := true, sendDisabled := true }
    startTypingIndicator cfg s3

/-- `display_response` (`app.py` lines 616-633): stop and remove the
typing indicator, strip a leading bot label, append the bot turn to
`conversation_history`, start the reveal animation, re-enable input. -/
def displayResponse (cfg : Config) (s : ChatState) (responseText : List Char) : ChatState :=
  let s1 := stopTypingIndicator s
  let cleaned := stripBotLabelText cfg.botName responseText
  let s2 := { s1 with history := s1.history ++ [cfg.botName ++ ": ".data ++ cleaned] }
  let s3 := startReveal cfg s2 cleaned
  { s3 with inputDisabled := false, sendDisabled := false }

/-- `display_error` (`app.py` lines 635-641): stop the typing indicator,
show the message in a warning box, re-enable input. -/
def displayError (s : ChatState) (errorMessage : List Char) : ChatState :=
  let s1 := stopTypingIndicator s
  { s1 with notices := s1.notices ++ [errorMessage],
            inputDisabled := false, sendDisabled := false }

/-- The state right after `ChatWindow.__init__` (`app.py` lines 352-377)
for the drawn `welcome` message: one rendered bot entry, the welcome turn
in `conversation_history`, both timers idle, input enabled. -/
def initState (cfg : Config) (welcome : List Char) : ChatState :=
  { messages := [⟨cfg.botName, createMessageBlock cfg cfg.botName (markdown_to_html welcome)⟩],
    typingTimerActive := false,
    typingDots := 0,
    typingMsgIndex := none,
    revealTimerActive := false,
    revealFullText := [],
    revealIndex := 0,
    revealMsgIndex := none,
    history := [cfg.botName ++ ": ".data ++ welcome],
    inputDisabled := false,
    sendDisabled := false,
    notices := [] }

/-- The external events that drive the window: a user submission, the
worker's success / failure callbacks, and the two timer ticks. -/
inductive Event where
  | submit : List Char → Event
  | response : List Char → Event
  | errorEv : List Char → Event
  | typingTick : Event
  | revealTick : Event

/-- Dispatch one event to its handler. -/
def step (cfg : Config) (s : ChatState) : Event → ChatState
  | .submit raw => sendMessage cfg s raw
  | .response t => displayResponse cfg s t
  | .errorEv m => displayError s m
  | .typingTick => advanceDots cfg s
  | .revealTick => revealNextChar cfg s

/-- Run a sequence of events from a state. -/
def runTrace (cfg : Config) (s : ChatState) : List Event → ChatState
  | [] => s
  | e :: es => runTrace cfg (step cfg s e) es

/-- Checks that no submission in the event sequence happens while the
reveal timer is running. -/
def noSubmitDuringReveal (cfg : Config) : ChatState → List Event → Bool
  | _, [] => true
  | s, e :: es =>
      (match e with
       | Event.submit _ => !s.revealTimerActive
       | _ => true) && noSubmitDuringReveal cfg (step cfg s e) es

/-- The conversation turns appended by an event sequence, as
(role, text) pairs: a non-blank submission appends a `User` turn with the
stripped input, a worker success appends a bot turn with the
label-stripped text, and nothing else touches the store. -/
def turnsOfTrace (cfg : Config) : List Event → List (List Char × List Char)
  | [] => []
  | Event.submit raw :: es =>
      (if (pyStrip raw).isEmpty then [] else [("User".data, pyStrip raw)])
        ++ turnsOfTrace cfg es
  | Event.response t :: es =>
      (cfg.botName, stripBotLabelText cfg.botName t) :: turnsOfTrace cfg es
  | _ :: es => turnsOfTrace cfg es

/-- Modelled from the spec (§4.2 "Inputs", §4.3 `asModelTranscript`):
"the full system instruction plus the entire Conversation Store serialized
as `\"{role}: {text}\"` lines, joined, with a trailing prompt cue for the
bot's turn" — the reference transcript a correct implementation must send,
used to compare `buildFullPrompt` against the store of appended turns. -/
def specTranscript (cfg : Config) (turns : List (List Char × List Char)) : List Char :=
  PROMPT ++ "\n\n".data
    ++ joinSep ['\n'] (turns.map (fun t => t.1 ++ ": ".data ++ t.2))
    ++ '\n' :: (cfg.botName ++ [':'])

/-- A concrete configuration used by the concrete test states below
(`"Bot"` is representative: bot names in the source are ASCII with no
colon). -/
def demoCfg : Config :=
  ⟨"Bot".data, "#BB86FC".data, "#FF80AB".data⟩

/-- A concrete start state with a short welcome message. -/
def demoState : ChatState :=
  initState demoCfg "Welcome!".data

/-! ### The HTML-safety grammar

`markdown_to_html` escapes `&`, `<`, `>` before inserting any markup, so
its output should decompose into renderer-inserted tags, the three
entities `&amp;` / `&lt;` / `&gt;`, and ordinary characters other than
`<`, `>`, `&`.  `Chunks ts` is that decomposition relative to an allowed
tag list `ts`; each substitution stage of the renderer enlarges the list. -/

/-- The escape entities produced by `escapeHtml`. -/
def entities : List (List Char) :=
  ["&amp;".data, "&lt;".data, "&gt;".data]

/-- `Chunks ts l`: `l` is a concatenation of tags from `ts`, entities, and
single characters other than `<`, `>`, `&`. -/
inductive Chunks (ts : List (List Char)) : List Char → Prop where
  | nil : Chunks ts []
  | tag (t rest : List Char) : t ∈ ts → Chunks ts rest → Chunks ts (t ++ rest)
  | ent (e rest : List Char) : e ∈ entities → Chunks ts rest → Chunks ts (e ++ rest)
  | chr (c : Char) (rest : List Char) :
      c ≠ '<' → c ≠ '>' → c ≠ '&' → Chunks ts rest → Chunks ts (c :: rest)

/-- Tags present after the inline-code pass. -/
def tsC : List (List Char) :=
  ["<code>".data, "</code>".data]

/-- Tags present after the bold pass. -/
def tsCB : List (List Char) :=
  tsC ++ ["<b>".data, "</b>".data]

/-- Tags present after the italic pass. -/
def tsCBI : List (List Char) :=
  tsCB ++ ["<i>".data, "</i>".data]

/-- All tags `markdown_to_html` ever inserts. -/
def tsAll : List (List Char) :=
  tsCBI ++ [ulOpenTag, olOpenTag, "</ul>".data, "</ol>".data,
            "<li>".data, "</li>".data, "<br>".data]

/-- Safety of a rendered fragment: every `<` and `>` of the output lies
inside a renderer-inserted tag and every `&` starts an escape entity. -/
def SafeHtml (l : List Char) : Prop :=
  Chunks tsAll l

/-- Every tag of `ts` starts with `<` (true of all the tag sets above). -/
def TagsWF (ts : List (List Char)) : Prop :=
  ∀ t ∈ ts, ∃ t', t = '<' :: t'

/-! ### Helpers for concrete list-rendering statements -/

/-- A character that no stage of the renderer touches. -/
def plainChar (c : Char) : Bool :=
  !(c ∈ ['&', '<', '>', '`', '*']) && !isLineBreakChar c

/-- A usable list-item content: non-empty, starting with a non-space
character, consisting of characters the inline passes leave alone. -/
def goodItem (it : List Char) : Bool :=
  match it with
  | [] => false
  | c :: _ => !isPySpace c && it.all plainChar

/-- A markdown bullet line for the given content. -/
def bulletize (it : List Char) : List Char :=
  '-' :: ' ' :: it

/-- A markdown numbered line for the given content. -/
def numberize (it : List Char) : List Char :=
  '1' :: '.' :: ' ' :: it

/-! ### Generic list lemmas -/

theorem dropWhile_append_of_all {p : Char → Bool} {a : List Char} (l : List Char)
    (h : ∀ c ∈ a, p c = true) :
    List.dropWhile p (a ++ l) = List.dropWhile p l := by
  induction a with
  | nil => rfl
  | cons x xs ih =>
      simp only [List.cons_append, List.dropWhile_cons, h x (by simp), if_true]
      exact ih (fun c hc => h c (by simp [hc]))

theorem dropWhile_cons_of_neg {p : Char → Bool} {c : Char} (l : List Char)
    (h : p c = false) :
    List.dropWhile p (c :: l) = c :: l := by
  simp [List.dropWhile_cons, h]

theorem dropWhile_append_mid {p : Char → Bool} {c : Char} (a b : List Char)
    (h : p c = false) :
    List.dropWhile p (a ++ c :: b) = List.dropWhile p a ++ c :: b := by
  induction a with
  | nil => simp [List.dropWhile_cons, h]
  | cons x xs ih =>
      by_cases hx : p x
      · simp [List.dropWhile_cons, hx, ih]
      · simp [List.dropWhile_cons, hx]

theorem startsWithList_append_same (x y z : List Char) :
    startsWithList (x ++ y) (x ++ z) = startsWithList y z := by
  induction x with
  | nil => rfl
  | cons c cs ih => simp [startsWithList, ih]

theorem afterFirstColonOpt_append {a : List Char} (b : List Char)
    (h : ∀ c ∈ a, c ≠ ':') :
    afterFirstColonOpt (a ++ ':' :: b) = some b := by
  induction a with
  | nil => simp [afterFirstColonOpt]
  | cons x xs ih =>
      simp only [List.cons_append, afterFirstColonOpt, if_neg (h x (by simp))]
      exact ih (fun c hc => h c (by simp [hc]))

/-! ### Claims C5, C6 — the model worker -/

/-- Claim C5: every invocation of the model worker produces exactly one
outcome — one success value or one classified failure — never both and
never neither, and (totality of `modelWorkerRun`) no invocation escapes
the worker's boundary: the timeout, missing-executable, empty-output and
unknown-exception paths each resolve to their single error emission. -/
theorem modelWorker_exactly_one_outcome :
    (∀ spr : SubprocessResult,
        (∃ t, modelWorkerRun spr = [Emission.resultReady t]) ∨
        (∃ m, modelWorkerRun spr = [Emission.errorMsg m]))
    ∧ modelWorkerRun .timeout = [.errorMsg "Error: Model timed out.".data]
    ∧ modelWorkerRun .fileNotFound =
        [.errorMsg "Error: \x27ollama\x27 not found. Please install or run Ollama.".data]
    ∧ (∀ e, modelWorkerRun (.otherError e) = [.errorMsg ("Error: ".data ++ e)])
    ∧ modelWorkerRun (.ok []) = [.errorMsg "Error: Model returned no output.".data] := by
  refine ⟨?_, rfl, rfl, fun e => rfl, by decide⟩
  intro spr
  cases spr with
  | timeout => right; exact ⟨_, rfl⟩
  | fileNotFound => right; exact ⟨_, rfl⟩
  | otherError e => right; exact ⟨_, rfl⟩
  | ok stdout =>
      simp only [modelWorkerRun]
      by_cases h :
          (match jsonLoadsQuoted (pyStrip stdout) with
           | some d => d
           | none => pyStrip stdout).isEmpty
      · right; rw [if_pos h]; exact ⟨_, rfl⟩
      · left; rw [if_neg h]; exact ⟨_, rfl⟩

/-- Claim C6: on a successful invocation the emitted text is the
whitespace-trimmed stdout with JSON escape sequences unescaped, and
whenever the unescape fails the emitted text is the raw trimmed stdout
(the unescape step is a total function and never raises).  The two
closing conjuncts exercise both branches: `A` decodes to `A`, while
the invalid escape `\q` falls back to the raw trimmed text. -/
theorem modelWorker_unescape_and_fallback :
    (∀ stdout d, jsonLoadsQuoted (pyStrip stdout) = some d → d.isEmpty = false →
        modelWorkerRun (.ok stdout) = [Emission.resultReady d])
    ∧ (∀ stdout, jsonLoadsQuoted (pyStrip stdout) = none →
        (pyStrip stdout).isEmpty = false →
        modelWorkerRun (.ok stdout) = [Emission.resultReady (pyStrip stdout)])
    ∧ modelWorkerRun (.ok "  \\u0041BC  ".data) = [Emission.resultReady "ABC".data]
    ∧ modelWorkerRun (.ok " A\\qB ".data) = [Emission.resultReady "A\\qB".data] := by
  refine ⟨?_, ?_, by decide, by decide⟩
  · intro stdout d h hne
    simp only [modelWorkerRun, h, hne, Bool.false_eq_true, if_false]
  · intro stdout h hne
    simp only [modelWorkerRun, h, hne, Bool.false_eq_true, if_false]

/-- Witness for C6 at concrete inputs: both the unescape branch and the
fallback branch are exercised through the theorem itself. -/
theorem modelWorker_unescape_and_fallback_witness :
    modelWorkerRun (.ok "\\n hi".data) = [Emission.resultReady "\n hi".data]
    ∧ modelWorkerRun (.ok "x\\".data) = [Emission.resultReady "x\\".data] :=
  ⟨modelWorker_unescape_and_fallback.1 "\\n hi".data "\n hi".data (by decide) (by decide),
   (modelWorker_unescape_and_fallback.2.1) "x\\".data (by decide) (by decide)⟩

/-! ### State-projection lemmas for the window handlers -/

theorem stopTypingIndicator_history (s : ChatState) :
    (stopTypingIndicator s).history = s.history := by
  cases h : s.typingMsgIndex <;> simp [stopTypingIndicator, h]

theorem stopTypingIndicator_reveal (s : ChatState) :
    (stopTypingIndicator s).revealTimerActive = s.revealTimerActive := by
  cases h : s.typingMsgIndex <;> simp [stopTypingIndicator, h]

theorem stopTypingIndicator_notices (s : ChatState) :
    (stopTypingIndicator s).notices = s.notices := by
  cases h : s.typingMsgIndex <;> simp [stopTypingIndicator, h]

theorem stopTypingIndicator_stops (s : ChatState)
    (hinv : s.typingTimerActive = true → s.typingMsgIndex.isSome = true) :
    (stopTypingIndicator s).typingTimerActive = false
    ∧ (stopTypingIndicator s).typingMsgIndex = none := by
  cases h : s.typingMsgIndex with
  | none =>
      have ht : s.typingTimerActive = false := by
        cases hb : s.typingTimerActive
        · rfl
        · have := hinv hb; rw [h] at this; simp at this
      simp [stopTypingIndicator, h, ht]
  | some idx => simp [stopTypingIndicator, h]

theorem advanceDots_projections (cfg : Config) (s : ChatState) :
    (advanceDots cfg s).typingTimerActive = s.typingTimerActive
    ∧ (advanceDots cfg s).revealTimerActive = s.revealTimerActive
    ∧ (advanceDots cfg s).history = s.history
    ∧ (advanceDots cfg s).typingMsgIndex.isSome = s.typingMsgIndex.isSome := by
  cases h : s.typingMsgIndex with
  | none => simp [advanceDots, h]
  | some idx =>
      by_cases hlt : idx < s.messages.length <;> simp [advanceDots, h, hlt]

theorem revealNextChar_projections (cfg : Config) (s : ChatState) :
    (revealNextChar cfg s).typingTimerActive = s.typingTimerActive
    ∧ (revealNextChar cfg s).history = s.history
    ∧ (revealNextChar cfg s).typingMsgIndex = s.typingMsgIndex
    ∧ ((revealNextChar cfg s).revealTimerActive = s.revealTimerActive
        ∨ (revealNextChar cfg s).revealTimerActive = false) := by
  by_cases hstop : s.revealFullText.length ≤ s.revealIndex
  · simp [revealNextChar, hstop]
  · cases h : s.revealMsgIndex with
    | none => simp [revealNextChar, hstop, h]
    | some idx =>
        by_cases hlt : idx < s.messages.length <;> simp [revealNextChar, hstop, h, hlt]

/-! ### Claim C7 — uniform failure handling -/

/-- Claim C7: on any invocation failure the controller leaves the
conversation store unchanged (no bot turn is appended), stops the typing
indicator, re-enables input and submission, and shows the failure message
to the user; for a timeout the shown message contains "timed out".  The
hypothesis is the indicator bookkeeping invariant (an active indicator
timer has its message index set), which holds in every reachable state. -/
theorem display_error_uniform_failure_handling :
    (∀ (s : ChatState) (msg : List Char),
        (s.typingTimerActive = true → s.typingMsgIndex.isSome = true) →
        (displayError s msg).history = s.history
        ∧ (displayError s msg).typingTimerActive = false
        ∧ (displayError s msg).inputDisabled = false
        ∧ (displayError s msg).sendDisabled = false
        ∧ (displayError s msg).notices = s.notices ++ [msg])
    ∧ modelWorkerRun .timeout = [Emission.errorMsg "Error: Model timed out.".data]
    ∧ containsSub "timed out".data "Error: Model timed out.".data = true := by
  refine ⟨?_, rfl, by decide⟩
  intro s msg hinv
  refine ⟨?_, ?_, rfl, rfl, ?_⟩
  · simp [displayError, stopTypingIndicator_history]
  · simp [displayError, (stopTypingIndicator_stops s hinv).1]
  · simp [displayError, stopTypingIndicator_notices]

/-- Witness for C7: the failure handler applied to the concrete state in
which a submission has started the typing indicator. -/
theorem display_error_uniform_failure_handling_witness :
    (displayError (runTrace demoCfg demoState [Event.submit "hi".data])
        "Error: Model timed out.".data).history
      = (runTrace demoCfg demoState [Event.submit "hi".data]).history
    ∧ (displayError (runTrace demoCfg demoState [Event.submit "hi".data])
        "Error: Model timed out.".data).typingTimerActive = false
    ∧ (displayError (runTrace demoCfg demoState [Event.submit "hi".data])
        "Error: Model timed out.".data).inputDisabled = false
    ∧ (displayError (runTrace demoCfg demoState [Event.submit "hi".data])
        "Error: Model timed out.".data).sendDisabled = false
    ∧ (displayError (runTrace demoCfg demoState [Event.submit "hi".data])
        "Error: Model timed out.".data).notices
      = (runTrace demoCfg demoState [Event.submit "hi".data]).notices
          ++ ["Error: Model timed out.".data] :=
  display_error_uniform_failure_handling.1
    (runTrace demoCfg demoState [Event.submit "hi".data])
    "Error: Model timed out.".data (by decide)


/-! ### Claim C8 — stripping the echoed bot label -/

/-- A list is a prefix of itself extended by anything. -/
theorem startsWithList_append_self (x z : List Char) : startsWithList x (x ++ z) = true := by
  induction x with
  | nil => rfl
  | cons c cs ih => simp [startsWithList, ih]

/-- Claim C8: a successful response that begins (case-insensitively, after
trimming) with the bot's label followed by `:` has that prefix stripped
exactly once — the stored text is the trimmed remainder after the first
colon of the response; text whose trimmed, lowered form does not begin
with the label followed by `:` is kept unchanged; and `display_response`
stores in the conversation history and reveals exactly the stripped
text. -/
theorem response_label_stripped_once :
    (∀ (botName ws pre reply : List Char),
        (∀ c ∈ ws, isPySpace c = true) →
        pre ≠ [] →
        (∀ c ∈ pre, isPySpace c = false ∧ c ≠ ':') →
        pyLowerList pre = pyLowerList botName →
        stripBotLabelText botName (ws ++ pre ++ ':' :: reply) = pyStrip reply)
    ∧ (∀ botName text,
        startsWithList (pyLowerList botName ++ [':'])
            (pyLowerList (pyStrip text)) = false →
        stripBotLabelText botName text = text)
    ∧ (∀ (cfg : Config) (s : ChatState) (t : List Char),
        (displayResponse cfg s t).history
            = s.history ++ [cfg.botName ++ ": ".data ++ stripBotLabelText cfg.botName t]
        ∧ (displayResponse cfg s t).revealFullText = stripBotLabelText cfg.botName t) := by
  refine ⟨?_, ?_, ?_⟩
  · intro botName ws pre reply hws hpre hprechars hlow
    obtain ⟨p0, pre', rfl⟩ : ∃ p0 pre', pre = p0 :: pre' := by
      cases pre with
      | nil => exact absurd rfl hpre
      | cons a b => exact ⟨a, b, rfl⟩
    have hstrip : pyStrip (ws ++ (p0 :: pre') ++ ':' :: reply)
        = (p0 :: pre') ++ ':' :: (List.dropWhile isPySpace reply.reverse).reverse := by
      unfold pyStrip
      rw [List.append_assoc, dropWhile_append_of_all _ hws, List.cons_append,
        dropWhile_cons_of_neg _ (hprechars p0 (by simp)).1]
      have h2 : (p0 :: (pre' ++ ':' :: reply)).reverse
          = reply.reverse ++ ':' :: (pre'.reverse ++ [p0]) := by
        simp
      rw [h2, dropWhile_append_mid _ _ (by decide : isPySpace ':' = false)]
      simp
    have hguard : startsWithList (pyLowerList botName ++ [':'])
        (pyLowerList (pyStrip (ws ++ (p0 :: pre') ++ ':' :: reply))) = true := by
      rw [hstrip, ← hlow]
      have hsplit : pyLowerList ((p0 :: pre') ++ ':'
              :: (List.dropWhile isPySpace reply.reverse).reverse)
          = pyLowerList (p0 :: pre')
              ++ ([':'] ++ pyLowerList (List.dropWhile isPySpace reply.reverse).reverse) := by
        simp [pyLowerList, (by decide : Char.toLower ':' = ':')]
      rw [hsplit, ← List.append_assoc]
      exact startsWithList_append_self _ _
    have hafter : afterFirstColonOpt (ws ++ (p0 :: pre') ++ ':' :: reply) = some reply := by
      refine afterFirstColonOpt_append reply ?_
      intro c hc
      rcases List.mem_append.1 hc with hcw | hcp
      · intro hceq
        have := hws c hcw
        rw [hceq] at this
        exact absurd this (by decide)
      · exact (hprechars c hcp).2
    rw [stripBotLabelText, if_pos hguard, hafter]
  · intro botName text h
    rw [stripBotLabelText, if_neg (by simp [h])]
  · intro cfg s t
    constructor
    · simp [displayResponse, startReveal, stopTypingIndicator_history]
    · simp [displayResponse, startReveal]

/-- Witness for C8: `"bOt: actual reply"` with bot label `"Bot"` is
stripped to `"actual reply"` (the trimmed remainder), via the theorem at
concrete inputs. -/
theorem response_label_stripped_once_witness :
    stripBotLabelText "Bot".data ([] ++ "bOt".data ++ ':' :: " actual reply".data)
      = pyStrip " actual reply".data :=
  response_label_stripped_once.1 "Bot".data [] "bOt".data " actual reply".data
    (by simp) (by decide) (by decide) (by decide)

/-! ### Claim C9 — the transcript refines the spec-level store -/

/-- `turnsOfTrace` distributes over the first event. -/
theorem turnsOfTrace_cons (cfg : Config) (e : Event) (es : List Event) :
    turnsOfTrace cfg (e :: es) = turnsOfTrace cfg [e] ++ turnsOfTrace cfg es := by
  cases e <;> simp [turnsOfTrace]

/-- No handler reorders or edits `conversation_history`; each appends
exactly the serialized turns of its event. -/
theorem step_history (cfg : Config) (s : ChatState) (e : Event) :
    (step cfg s e).history
      = s.history ++ (turnsOfTrace cfg [e]).map (fun t => t.1 ++ ": ".data ++ t.2) := by
  cases e with
  | submit raw =>
      by_cases h : (pyStrip raw).isEmpty
      · simp [step, sendMessage, h, turnsOfTrace]
      · simp [step, sendMessage, h, turnsOfTrace, startTypingIndicator]
  | response t =>
      simp [step, displayResponse, startReveal, stopTypingIndicator_history, turnsOfTrace]
  | errorEv m =>
      simp [step, displayError, stopTypingIndicator_history, turnsOfTrace]
  | typingTick =>
      simp [step, (advanceDots_projections cfg s).2.2.1, turnsOfTrace]
  | revealTick =>
      simp [step, (revealNextChar_projections cfg s).2.1, turnsOfTrace]

/-- The history after a trace is the initial history plus the serialized
turns of the trace, in order. -/
theorem runTrace_history (cfg : Config) :
    ∀ (es : List Event) (s : ChatState),
      (runTrace cfg s es).history
        = s.history ++ (turnsOfTrace cfg es).map (fun t => t.1 ++ ": ".data ++ t.2) := by
  intro es
  induction es with
  | nil => intro s; simp [runTrace, turnsOfTrace]
  | cons e es ih =>
      intro s
      rw [runTrace, ih, step_history, turnsOfTrace_cons, List.map_append, List.append_assoc]
      simp [turnsOfTrace]
      rw [turnsOfTrace_cons cfg e es, List.map_append]

/-- Claim C9: for every sequence of submissions, worker completions and
timer ticks, the transcript the worker sends to the model equals the
system instruction followed by every conversation-store turn serialized
as a `"{role}: {text}"` line, joined in exact append order (starting with
the initial greeting turn), ending with the trailing `"{botName}:"`
prompt cue — `buildFullPrompt` over the code's string store refines the
spec-level `specTranscript` over (role, text) turns. -/
theorem transcript_refines_spec (cfg : Config) (welcome : List Char) (events : List Event) :
    buildFullPrompt cfg (runTrace cfg (initState cfg welcome) events).history
      = specTranscript cfg ((cfg.botName, welcome) :: turnsOfTrace cfg events) := by
  rw [buildFullPrompt, specTranscript, runTrace_history]
  simp [initState, List.map_cons]

/-! ### Claim C3 — the character-reveal animation -/

/-- Updating the html of the last entry of a snoc list. -/
theorem updateHtmlAt_concat (xs : List Msg) (m : Msg) (h : List Char) :
    updateHtmlAt (xs ++ [m]) xs.length h = xs ++ [{ m with html := h }] := by
  induction xs with
  | nil => rfl
  | cons x xs ih => simp [updateHtmlAt, ih]

/-- Closed form of the reveal loop: for `k ≤ L` ticks after `_start_reveal`,
the placeholder entry (appended at the end of the message list) carries the
markdown rendering of the first `k` characters, the reveal index is `k`,
and the timer is still running. -/
theorem reveal_iterate (cfg : Config) (s : ChatState) (text : List Char) :
    ∀ k, k ≤ text.length →
      (revealNextChar cfg)^[k] (startReveal cfg s text)
        = { s with
            revealFullText := text,
            revealIndex := k,
            messages := s.messages
              ++ [Msg.mk cfg.botName
                    (createMessageBlock cfg cfg.botName (markdown_to_html (text.take k)))],
            revealMsgIndex := some s.messages.length,
            revealTimerActive := true } := by
  intro k
  induction k with
  | zero =>
      intro _
      simp [startReveal, markdown_to_html]
  | succ k ih =>
      intro hk
      rw [Function.iterate_succ_apply', ih (Nat.le_of_succ_le hk)]
      have hlt : ¬ (text.length ≤ k) := Nat.not_le.mpr (Nat.lt_of_succ_le hk)
      simp [revealNextChar, hlt, updateHtmlAt_concat]

/-- The tick after the last character stops the timer and clears the
reveal state. -/
theorem reveal_idle (cfg : Config) (s : ChatState) (text : List Char) :
    ((revealNextChar cfg)^[text.length + 1] (startReveal cfg s text)).revealTimerActive = false
    ∧ ((revealNextChar cfg)^[text.length + 1] (startReveal cfg s text)).revealFullText = []
    ∧ ((revealNextChar cfg)^[text.length + 1] (startReveal cfg s text)).revealIndex = 0
    ∧ ((revealNextChar cfg)^[text.length + 1] (startReveal cfg s text)).revealMsgIndex = none := by
  rw [Function.iterate_succ_apply', reveal_iterate cfg s text text.length (Nat.le_refl _)]
  simp [revealNextChar]

/-- Counterexample to claim C3 as stated: for the one-character response
`"a"` (L = 1), after exactly L = 1 ticks the reveal timer is still
running and the reveal state is not cleared — the `Idle` state is reached
only at tick L + 1 = 2. -/
theorem reveal_not_idle_after_length_ticks :
    ((revealNextChar demoCfg)^[1] (startReveal demoCfg demoState "a".data)).revealTimerActive = true
    ∧ ((revealNextChar demoCfg)^[1] (startReveal demoCfg demoState "a".data)).revealMsgIndex ≠ none
    ∧ ((revealNextChar demoCfg)^[2] (startReveal demoCfg demoState "a".data)).revealTimerActive = false := by
  refine ⟨by decide, by decide, by decide⟩

/-- Claim C3 as amended: the reveal animation reaches the Idle state
(timer stopped, reveal state cleared) after exactly L + 1 ticks — ticks
1..L reveal the characters and the following tick stops the timer — and
after tick k (1 ≤ k ≤ L) the displayed content of the placeholder entry
equals `markdown_to_html` applied to the first k characters. -/
theorem reveal_prefix_and_idle_after_succ_ticks (cfg : Config) (s : ChatState) (text : List Char) :
    (∀ k, 1 ≤ k → k ≤ text.length →
      ((revealNextChar cfg)^[k] (startReveal cfg s text)).messages[s.messages.length]?
          = some (Msg.mk cfg.botName
              (createMessageBlock cfg cfg.botName (markdown_to_html (text.take k))))
      ∧ ((revealNextChar cfg)^[k] (startReveal cfg s text)).revealTimerActive = true)
    ∧ ((revealNextChar cfg)^[text.length + 1] (startReveal cfg s text)).revealTimerActive = false
    ∧ ((revealNextChar cfg)^[text.length + 1] (startReveal cfg s text)).revealFullText = []
    ∧ ((revealNextChar cfg)^[text.length + 1] (startReveal cfg s text)).revealIndex = 0
    ∧ ((revealNextChar cfg)^[text.length + 1] (startReveal cfg s text)).revealMsgIndex = none := by
  refine ⟨?_, (reveal_idle cfg s text).1, (reveal_idle cfg s text).2.1,
    (reveal_idle cfg s text).2.2.1, (reveal_idle cfg s text).2.2.2⟩
  intro k _ hk2
  rw [reveal_iterate cfg s text k hk2]
  exact ⟨List.getElem?_concat_length _ _, rfl⟩

/-- Witness for the amended C3 at the concrete response `"ab"`. -/
theorem reveal_prefix_and_idle_after_succ_ticks_witness :
    (((revealNextChar demoCfg)^[1] (startReveal demoCfg demoState "ab".data)).messages[demoState.messages.length]?
        = some (Msg.mk demoCfg.botName
            (createMessageBlock demoCfg demoCfg.botName (markdown_to_html ("ab".data.take 1))))
      ∧ ((revealNextChar demoCfg)^[1] (startReveal demoCfg demoState "ab".data)).revealTimerActive = true)
    ∧ ((revealNextChar demoCfg)^["ab".data.length + 1]
          (startReveal demoCfg demoState "ab".data)).revealTimerActive = false :=
  ⟨(reveal_prefix_and_idle_after_succ_ticks demoCfg demoState "ab".data).1 1
      (by decide) (by decide),
   (reveal_prefix_and_idle_after_succ_ticks demoCfg demoState "ab".data).2.1⟩

/-! ### Claim C4 — tick-source exclusivity -/

/-- `display_response` takes its typing fields from the stopped
indicator and always starts the reveal timer. -/
theorem displayResponse_projections (cfg : Config) (s : ChatState) (t : List Char) :
    (displayResponse cfg s t).typingTimerActive = (stopTypingIndicator s).typingTimerActive
    ∧ (displayResponse cfg s t).typingMsgIndex = (stopTypingIndicator s).typingMsgIndex
    ∧ (displayResponse cfg s t).revealTimerActive = true := by
  simp [displayResponse, startReveal]

/-- `display_error` takes its typing fields from the stopped indicator
and leaves the reveal timer alone. -/
theorem displayError_projections (s : ChatState) (m : List Char) :
    (displayError s m).typingTimerActive = (stopTypingIndicator s).typingTimerActive
    ∧ (displayError s m).typingMsgIndex = (stopTypingIndicator s).typingMsgIndex
    ∧ (displayError s m).revealTimerActive = s.revealTimerActive := by
  simp [displayError, stopTypingIndicator_reveal]

/-- One step preserves the timer bookkeeping invariant, provided a
submission only happens while the reveal timer is off. -/
theorem step_tick_inv (cfg : Config) (s : ChatState) (e : Event)
    (h1 : s.typingTimerActive = true → s.typingMsgIndex.isSome = true)
    (h2 : ¬(s.typingTimerActive = true ∧ s.revealTimerActive = true))
    (hsub : ∀ raw, e = Event.submit raw → s.revealTimerActive = false) :
    ((step cfg s e).typingTimerActive = true → (step cfg s e).typingMsgIndex.isSome = true)
    ∧ ¬((step cfg s e).typingTimerActive = true ∧ (step cfg s e).revealTimerActive = true) := by
  cases e with
  | submit raw =>
      have hrev : s.revealTimerActive = false := hsub raw rfl
      by_cases h : (pyStrip raw).isEmpty
      · refine ⟨?_, ?_⟩ <;> simp only [step, sendMessage, h, if_true] <;>
          first
          | exact h1
          | exact h2
      · constructor
        · intro _
          simp [step, sendMessage, h, startTypingIndicator]
        · intro hcon
          have : (step cfg s (Event.submit raw)).revealTimerActive = false := by
            simp [step, sendMessage, h, startTypingIndicator, hrev]
          rw [this] at hcon
          exact absurd hcon.2 (by simp)
  | response t =>
      simp only [step]
      have hstop := stopTypingIndicator_stops s h1
      have hp := displayResponse_projections cfg s t
      constructor
      · intro hT
        rw [hp.1, hstop.1] at hT
        exact absurd hT (by simp)
      · intro hcon
        have := hcon.1
        rw [hp.1, hstop.1] at this
        exact absurd this (by simp)
  | errorEv m =>
      simp only [step]
      have hstop := stopTypingIndicator_stops s h1
      have hp := displayError_projections s m
      constructor
      · intro hT
        rw [hp.1, hstop.1] at hT
        exact absurd hT (by simp)
      · intro hcon
        have := hcon.1
        rw [hp.1, hstop.1] at this
        exact absurd this (by simp)
  | typingTick =>
      simp only [step]
      have hp := advanceDots_projections cfg s
      constructor
      · intro hT
        rw [hp.2.2.2]
        exact h1 (hp.1 ▸ hT)
      · intro hcon
        exact h2 ⟨hp.1 ▸ hcon.1, hp.2.1 ▸ hcon.2⟩
  | revealTick =>
      simp only [step]
      have hp := revealNextChar_projections cfg s
      constructor
      · intro hT
        rw [hp.2.2.1]
        exact h1 (hp.1 ▸ hT)
      · intro hcon
        rcases hp.2.2.2 with hr | hr
        · exact h2 ⟨hp.1 ▸ hcon.1, hr ▸ hcon.2⟩
        · rw [hr] at hcon
          exact absurd hcon.2 (by simp)

/-- The timer bookkeeping invariant along a trace in which no submission
happens during an active reveal. -/
theorem runTrace_tick_inv (cfg : Config) :
    ∀ (es : List Event) (s : ChatState),
      (s.typingTimerActive = true → s.typingMsgIndex.isSome = true) →
      ¬(s.typingTimerActive = true ∧ s.revealTimerActive = true) →
      noSubmitDuringReveal cfg s es = true →
      ((runTrace cfg s es).typingTimerActive = true
          → (runTrace cfg s es).typingMsgIndex.isSome = true)
      ∧ ¬((runTrace cfg s es).typingTimerActive = true
          ∧ (runTrace cfg s es).revealTimerActive = true) := by
  intro es
  induction es with
  | nil => intro s h1 h2 _; exact ⟨h1, h2⟩
  | cons e es ih =>
      intro s h1 h2 hns
      cases e with
      | submit raw =>
          have hns' : (!s.revealTimerActive) = true
              ∧ noSubmitDuringReveal cfg (step cfg s (Event.submit raw)) es = true := by
            simpa [noSubmitDuringReveal, Bool.and_eq_true] using hns
          have hstep := step_tick_inv cfg s (Event.submit raw) h1 h2
            (fun r hr => by cases hr; simpa using hns'.1)
          exact ih _ hstep.1 hstep.2 hns'.2
      | response t =>
          have hns' : noSubmitDuringReveal cfg (step cfg s (Event.response t)) es = true := by
            simpa [noSubmitDuringReveal] using hns
          have hstep := step_tick_inv cfg s (Event.response t) h1 h2 (fun r hr => by cases hr)
          exact ih _ hstep.1 hstep.2 hns'
      | errorEv m =>
          have hns' : noSubmitDuringReveal cfg (step cfg s (Event.errorEv m)) es = true := by
            simpa [noSubmitDuringReveal] using hns
          have hstep := step_tick_inv cfg s (Event.errorEv m) h1 h2 (fun r hr => by cases hr)
          exact ih _ hstep.1 hstep.2 hns'
      | typingTick =>
          have hns' : noSubmitDuringReveal cfg (step cfg s Event.typingTick) es = true := by
            simpa [noSubmitDuringReveal] using hns
          have hstep := step_tick_inv cfg s Event.typingTick h1 h2 (fun r hr => by cases hr)
          exact ih _ hstep.1 hstep.2 hns'
      | revealTick =>
          have hns' : noSubmitDuringReveal cfg (step cfg s Event.revealTick) es = true := by
            simpa [noSubmitDuringReveal] using hns
          have hstep := step_tick_inv cfg s Event.revealTick h1 h2 (fun r hr => by cases hr)
          exact ih _ hstep.1 hstep.2 hns'

/-- Counterexample to claim C4 as stated: submitting again while the
reveal of the previous response is still running (which the re-enabled
input surface allows) leaves both the typing-indicator timer and the
reveal timer running at once, so two tick sources are active. -/
theorem both_tick_sources_active_counterexample :
    (runTrace demoCfg demoState
        [Event.submit "hi".data, Event.response "aaaa".data,
         Event.submit "yo".data]).typingTimerActive = true
    ∧ (runTrace demoCfg demoState
        [Event.submit "hi".data, Event.response "aaaa".data,
         Event.submit "yo".data]).revealTimerActive = true := by
  exact ⟨by decide, by decide⟩

theorem single_tick_source_without_submit_during_reveal
    (cfg : Config) (welcome : List Char) (events : List Event)
    (h : noSubmitDuringReveal cfg (initState cfg welcome) events = true) :
    ¬((runTrace cfg (initState cfg welcome) events).typingTimerActive = true
      ∧ (runTrace cfg (initState cfg welcome) events).revealTimerActive = true) :=
  (runTrace_tick_inv cfg events (initState cfg welcome)
    (by simp [initState]) (by simp [initState]) h).2

/-- Witness for the amended C4 on a concrete submit/response trace. -/
theorem single_tick_source_without_submit_during_reveal_witness :
    ¬((runTrace demoCfg (initState demoCfg "Welcome!".data)
        [Event.submit "hi".data, Event.response "ok".data]).typingTimerActive = true
      ∧ (runTrace demoCfg (initState demoCfg "Welcome!".data)
        [Event.submit "hi".data, Event.response "ok".data]).revealTimerActive = true) :=
  single_tick_source_without_submit_during_reveal demoCfg "Welcome!".data
    [Event.submit "hi".data, Event.response "ok".data] (by decide)

/-! ### Safety of the renderer output (claim C1): chunk machinery -/

/-- Chunk decompositions concatenate. -/
theorem Chunks.append {ts : List (List Char)} {a b : List Char}
    (ha : Chunks ts a) (hb : Chunks ts b) : Chunks ts (a ++ b) := by
  induction ha with
  | nil => simpa using hb
  | tag t rest ht _ ih => rw [List.append_assoc]; exact Chunks.tag t _ ht ih
  | ent e rest he _ ih => rw [List.append_assoc]; exact Chunks.ent e _ he ih
  | chr c rest h1 h2 h3 _ ih => exact Chunks.chr c _ h1 h2 h3 ih

/-- Enlarging the allowed tag list preserves a decomposition. -/
theorem Chunks.mono {ts ts' : List (List Char)} {l : List Char}
    (hsub : ∀ t ∈ ts, t ∈ ts') (h : Chunks ts l) : Chunks ts' l := by
  induction h with
  | nil => exact Chunks.nil
  | tag t rest ht _ ih => exact Chunks.tag t rest (hsub t ht) ih
  | ent e rest he _ ih => exact Chunks.ent e rest he ih
  | chr c rest h1 h2 h3 _ ih => exact Chunks.chr c rest h1 h2 h3 ih

/-- A tag alone is a decomposition. -/
theorem Chunks.single_tag {ts : List (List Char)} {t : List Char} (h : t ∈ ts) :
    Chunks ts t := by
  have := Chunks.tag t [] h Chunks.nil
  simpa using this

/-- A decidable sufficient condition for `TagsWF`. -/
theorem tagsWF_of_head {ts : List (List Char)}
    (h : ∀ t ∈ ts, t.head? = some '<') : TagsWF ts := by
  intro t ht
  cases t with
  | nil => simpa using h [] ht
  | cons c t' =>
      have := h (c :: t') ht
      simp at this
      exact ⟨t', by rw [this]⟩

/-- Every escape entity starts with `&`. -/
theorem entities_wf : ∀ e ∈ entities, ∃ e', e = '&' :: e' := by
  intro e he
  rcases (by simpa [entities] using he : e = "&amp;".data ∨ e = "&lt;".data ∨ e = "&gt;".data)
    with rfl | rfl | rfl
  · exact ⟨"amp;".data, rfl⟩
  · exact ⟨"lt;".data, rfl⟩
  · exact ⟨"gt;".data, rfl⟩

/-- Inverting a decomposition at a head character that cannot start or
occur in any chunk but a plain-character chunk. -/
theorem Chunks.cons_inv {ts : List (List Char)} {c : Char} {b : List Char}
    (h : Chunks ts (c :: b)) (hwf : TagsWF ts)
    (hct : ∀ t ∈ ts, c ∉ t) (hce : ∀ e ∈ entities, c ∉ e) : Chunks ts b := by
  generalize hl : c :: b = l at h
  induction h with
  | nil => simp at hl
  | tag t rest ht hrest _ =>
      obtain ⟨t', rfl⟩ := hwf t ht
      rw [List.cons_append] at hl
      have hc : c = '<' := by
        have := hl
        injection this.symm with h1 _
        exact h1.symm
      exact absurd (by rw [hc]; exact List.mem_cons_self _ _) (hct _ ht)
  | ent e rest he hrest _ =>
      obtain ⟨e', rfl⟩ := entities_wf e he
      rw [List.cons_append] at hl
      have hc : c = '&' := by
        injection hl.symm with h1 _
        exact h1.symm
      exact absurd (by rw [hc]; exact List.mem_cons_self _ _) (hce _ he)
  | chr c' rest h1 h2 h3 hrest _ =>
      have hcc : c' = c ∧ rest = b := by
        have := hl.symm
        injection this with x y
        exact ⟨x, y⟩
      rw [← hcc.2]
      exact hrest

/-- A decomposition splits at any occurrence of a character that appears
in no tag and no entity: such a character is always its own chunk. -/
theorem Chunks.split {ts : List (List Char)} {l : List Char}
    (h : Chunks ts l) (hwf : TagsWF ts) {c : Char}
    (hct : ∀ t ∈ ts, c ∉ t) (hce : ∀ e ∈ entities, c ∉ e) :
    ∀ a b, l = a ++ c :: b → Chunks ts a ∧ Chunks ts b := by
  induction h with
  | nil =>
      intro a b hab
      exact absurd hab.symm (by simp)
  | tag t rest ht hrest ih =>
      intro a b hab
      rcases List.append_eq_append_iff.1 hab with ⟨a', ha, hr⟩ | ⟨c', hta, hcb⟩
      · obtain ⟨h1, h2⟩ := ih a' b hr
        exact ⟨ha ▸ Chunks.tag t a' ht h1, h2⟩
      · cases c' with
        | nil =>
            rw [List.append_nil] at hta
            have hb : rest = c :: b := by simpa using hcb.symm
            refine ⟨hta ▸ Chunks.single_tag ht, ?_⟩
            exact Chunks.cons_inv (hb ▸ hrest) hwf hct hce
        | cons d c'' =>
            have hcd : c = d := by
              injection hcb
            have : c ∈ t := by
              rw [hta, hcd]
              simp
            exact absurd this (hct t ht)
  | ent e rest he hrest ih =>
      intro a b hab
      rcases List.append_eq_append_iff.1 hab with ⟨a', ha, hr⟩ | ⟨c', hta, hcb⟩
      · obtain ⟨h1, h2⟩ := ih a' b hr
        exact ⟨ha ▸ Chunks.ent e a' he h1, h2⟩
      · cases c' with
        | nil =>
            rw [List.append_nil] at hta
            have hb : rest = c :: b := by simpa using hcb.symm
            have hea : Chunks ts e := by
              have : Chunks ts (e ++ []) := Chunks.ent e [] he Chunks.nil
              simpa using this
            refine ⟨hta ▸ hea, ?_⟩
            exact Chunks.cons_inv (hb ▸ hrest) hwf hct hce
        | cons d c'' =>
            have hcd : c = d := by
              injection hcb
            have : c ∈ e := by
              rw [hta, hcd]
              simp
            exact absurd this (hce e he)
  | chr c' rest h1 h2 h3 hrest ih =>
      intro a b hab
      cases a with
      | nil =>
          simp at hab
          exact ⟨Chunks.nil, hab.2 ▸ hrest⟩
      | cons x a' =>
          rw [List.cons_append, List.cons.injEq] at hab
          obtain ⟨hca, hcb2⟩ := ih a' b hab.2
          exact ⟨hab.1 ▸ Chunks.chr c' a' h1 h2 h3 hca, hcb2⟩

/-- Dropping a prefix of characters that a predicate accepts (the
predicate rejecting `<` and `&`, so it never bites into a tag or an
entity) preserves a decomposition. -/
theorem Chunks.dropWhile {ts : List (List Char)} {l : List Char} {p : Char → Bool}
    (h : Chunks ts l) (hwf : TagsWF ts)
    (hp1 : p '<' = false) (hp2 : p '&' = false) :
    Chunks ts (l.dropWhile p) := by
  induction h with
  | nil => exact Chunks.nil
  | tag t rest ht hrest ih =>
      obtain ⟨t', rfl⟩ := hwf t ht
      rw [List.cons_append, List.dropWhile_cons, hp1]
      simpa using Chunks.tag _ rest ht hrest
  | ent e rest he hrest ih =>
      obtain ⟨e', rfl⟩ := entities_wf e he
      rw [List.cons_append, List.dropWhile_cons, hp2]
      simpa using Chunks.ent _ rest he hrest
  | chr c rest h1 h2 h3 hrest ih =>
      rw [List.dropWhile_cons]
      by_cases hc : p c
      · simpa [hc] using ih
      · simpa [hc] using Chunks.chr c rest h1 h2 h3 hrest

/-- `replaceChar` distributes over concatenation. -/
theorem replaceChar_append (c : Char) (r a b : List Char) :
    replaceChar c r (a ++ b) = replaceChar c r a ++ replaceChar c r b := by
  induction a with
  | nil => rfl
  | cons x xs ih => simp [replaceChar, ih]

/-- `replaceChar` is the identity when the needle does not occur. -/
theorem replaceChar_of_not_mem {c : Char} {a : List Char} (r : List Char)
    (h : c ∉ a) : replaceChar c r a = a := by
  induction a with
  | nil => rfl
  | cons x xs ih =>
      have hx : x ≠ c := fun he => h (he ▸ List.mem_cons_self x xs)
      simp [replaceChar, hx, ih (fun hm => h (List.mem_cons_of_mem x hm))]

/-- The escape stage produces only entities and plain characters: its
output is a tag-free chunk decomposition. -/
theorem chunks_escape : ∀ l : List Char, Chunks [] (escapeHtml l) := by
  intro l
  induction l with
  | nil => exact Chunks.nil
  | cons x xs ih =>
      show Chunks [] (escapeHtml (x :: xs))
      have hx : escapeHtml (x :: xs)
          = (if x = '&' then "&amp;".data else if x = '<' then "&lt;".data
             else if x = '>' then "&gt;".data else [x]) ++ escapeHtml xs := by
        unfold escapeHtml
        rw [show replaceChar '&' "&amp;".data (x :: xs)
            = (if x = '&' then "&amp;".data else [x]) ++ replaceChar '&' "&amp;".data xs from rfl]
        rw [replaceChar_append, replaceChar_append]
        by_cases h1 : x = '&'
        · subst h1
          rw [if_pos rfl, if_pos rfl]
          rw [replaceChar_of_not_mem _ (by decide), replaceChar_of_not_mem _ (by decide)]
        · rw [if_neg h1, if_neg h1]
          by_cases h2 : x = '<'
          · subst h2
            rw [show replaceChar '<' "&lt;".data ['<'] = "&lt;".data ++ [] from rfl]
            rw [if_pos rfl]
            simp only [List.append_nil]
            rw [replaceChar_of_not_mem _ (by decide)]
          · rw [show replaceChar '<' "&lt;".data [x] = (if x = '<' then "&lt;".data else [x]) ++ [] from rfl]
            rw [if_neg h2, if_neg h2]
            simp only [List.append_nil]
            by_cases h3 : x = '>'
            · subst h3
              simp [replaceChar]
            · simp [replaceChar, h3]
      rw [hx]
      by_cases h1 : x = '&'
      · subst h1
        rw [if_pos rfl]
        exact Chunks.ent _ _ (by simp [entities]) ih
      · rw [if_neg h1]
        by_cases h2 : x = '<'
        · subst h2
          rw [if_pos rfl]
          exact Chunks.ent _ _ (by simp [entities]) ih
        · rw [if_neg h2]
          by_cases h3 : x = '>'
          · subst h3
            rw [if_pos rfl]
            exact Chunks.ent _ _ (by simp [entities]) ih
          · rw [if_neg h3]
            exact Chunks.chr x _ h2 h3 h1 ih

/-- A successful scan splits its input at the first closing delimiter:
the group is the accumulator plus the consumed middle. -/
theorem scanDelim_spec (stop : Char) :
    ∀ (l acc content rest2 : List Char),
      scanDelim stop acc l = some (content, rest2) →
      ∃ mid, l = mid ++ stop :: rest2 ∧ content = acc.reverse ++ mid := by
  intro l
  induction l with
  | nil => intro acc content rest2 h; simp [scanDelim] at h
  | cons c rest ih =>
      intro acc content rest2 h
      rw [scanDelim] at h
      by_cases hn : c = '\n'
      · rw [if_pos hn] at h; simp at h
      · rw [if_neg hn] at h
        by_cases hs : c = stop ∧ acc ≠ []
        · rw [if_pos hs] at h
          obtain ⟨h1, h2⟩ : acc.reverse = content ∧ rest = rest2 := by
            simpa using h
          exact ⟨[], by simp [hs.1, h2], by simp [h1]⟩
        · rw [if_neg hs] at h
          obtain ⟨mid', hm1, hm2⟩ := ih (c :: acc) content rest2 h
          exact ⟨c :: mid', by simp [hm1], by simpa using hm2⟩

/-- A successful scan consumes at least the closing delimiter. -/
theorem scanDelim_length (stop : Char) {l acc content rest2 : List Char}
    (h : scanDelim stop acc l = some (content, rest2)) :
    rest2.length < l.length := by
  obtain ⟨mid, hm, _⟩ := scanDelim_spec stop l acc content rest2 h
  rw [hm]
  simp
  omega

/-- `subDelimF` does not depend on the fuel once it covers the input
length. -/
theorem subDelimF_mono (stop : Char) (o c : List Char) :
    ∀ (f1 : Nat) (l : List Char) (f2 : Nat), l.length ≤ f1 → l.length ≤ f2 →
      subDelimF stop o c f1 l = subDelimF stop o c f2 l := by
  intro f1
  induction f1 with
  | zero =>
      intro l f2 h1 _
      have : l = [] := List.length_eq_zero.1 (Nat.le_zero.1 h1)
      subst this
      cases f2 <;> rfl
  | succ n ih =>
      intro l f2 h1 h2
      cases l with
      | nil => cases f2 <;> rfl
      | cons x rest =>
          cases f2 with
          | zero => simp at h2
          | succ m =>
              rw [subDelimF, subDelimF]
              by_cases hx : x = stop
              · rw [if_pos hx, if_pos hx]
                cases hsc : scanDelim stop [] rest with
                | none =>
                    have hr1 : rest.length ≤ n := by simpa using h1
                    have hr2 : rest.length ≤ m := by simpa using h2
                    dsimp only
                    rw [ih rest m hr1 hr2]
                | some p =>
                    obtain ⟨content, rest2⟩ := p
                    have hlen := scanDelim_length stop hsc
                    have hr1 : rest2.length ≤ n := by
                      have : rest.length ≤ n := by simpa using h1
                      omega
                    have hr2 : rest2.length ≤ m := by
                      have : rest.length ≤ m := by simpa using h2
                      omega
                    dsimp only
                    rw [ih rest2 m hr1 hr2]
              · rw [if_neg hx, if_neg hx]
                have hr1 : rest.length ≤ n := by simpa using h1
                have hr2 : rest.length ≤ m := by simpa using h2
                rw [ih rest m hr1 hr2]

/-- At canonical fuel: a non-delimiter head character passes through. -/
theorem subDelimW_cons (stop : Char) (o c : List Char) (x : Char) (l : List Char)
    (hx : x ≠ stop) :
    subDelimF stop o c (x :: l).length (x :: l) = x :: subDelimF stop o c l.length l := by
  rw [List.length_cons, subDelimF, if_neg hx]

/-- At canonical fuel: a matched delimiter wraps the group in the open
and close tags and continues after the closing delimiter. -/
theorem subDelimW_open_some (stop : Char) (o c : List Char)
    {rest content rest2 : List Char}
    (h : scanDelim stop [] rest = some (content, rest2)) :
    subDelimF stop o c (stop :: rest).length (stop :: rest)
      = o ++ content ++ c ++ subDelimF stop o c rest2.length rest2 := by
  rw [List.length_cons, subDelimF, if_pos rfl, h]
  dsimp only
  rw [subDelimF_mono stop o c rest.length rest2 rest2.length
    (le_of_lt (scanDelim_length stop h)) (le_refl _)]

/-- At canonical fuel: an unmatched opening delimiter is emitted as is
and scanning resumes right after it. -/
theorem subDelimW_open_none (stop : Char) (o c : List Char) {rest : List Char}
    (h : scanDelim stop [] rest = none) :
    subDelimF stop o c (stop :: rest).length (stop :: rest)
      = stop :: subDelimF stop o c rest.length rest := by
  rw [List.length_cons, subDelimF, if_pos rfl, h]

/-- A delimiter-free prefix passes through a substitution pass. -/
theorem subDelimW_transparent (stop : Char) (o c : List Char) :
    ∀ (t l : List Char), (∀ x ∈ t, x ≠ stop) →
      subDelimF stop o c (t ++ l).length (t ++ l)
        = t ++ subDelimF stop o c l.length l := by
  intro t
  induction t with
  | nil => intro l _; rfl
  | cons x t' ih =>
      intro l h
      rw [List.cons_append, show ((x :: (t' ++ l)).length) = (t' ++ l).length + 1 from rfl]
      rw [show subDelimF stop o c ((t' ++ l).length + 1) (x :: (t' ++ l))
          = subDelimF stop o c (x :: (t' ++ l)).length (x :: (t' ++ l)) from rfl]
      rw [subDelimW_cons stop o c x (t' ++ l) (h x (by simp))]
      rw [ih l (fun y hy => h y (by simp [hy]))]
      rfl

/-- A delimiter-free string is untouched by a substitution pass. -/
theorem subDelimW_id (stop : Char) (o c : List Char) :
    ∀ (l : List Char), (∀ x ∈ l, x ≠ stop) →
      subDelimF stop o c l.length l = l := by
  intro l
  induction l with
  | nil => intro _; rfl
  | cons x rest ih =>
      intro h
      rw [subDelimW_cons stop o c x rest (h x (by simp))]
      rw [ih (fun y hy => h y (by simp [hy]))]

/-- The generic safety of one single-character substitution pass: chunked
input over tags `ts` yields chunked output over `ts` plus the pass's open
and close tags, provided the delimiter occurs in no tag and no entity. -/
theorem subDelim_chunks (stop : Char) (o c : List Char) (ts ts' : List (List Char))
    (hsub : ∀ t ∈ ts, t ∈ ts') (ho : o ∈ ts') (hc : c ∈ ts')
    (hwf : TagsWF ts)
    (hstags : ∀ t ∈ ts, stop ∉ t) (hsents : ∀ e ∈ entities, stop ∉ e)
    (hs1 : stop ≠ '<') (hs2 : stop ≠ '>') (hs3 : stop ≠ '&') :
    ∀ (n : Nat) (l : List Char), l.length ≤ n → Chunks ts l →
      Chunks ts' (subDelimF stop o c l.length l) := by
  intro n
  induction n with
  | zero =>
      intro l hl _
      have : l = [] := List.length_eq_zero.1 (Nat.le_zero.1 hl)
      subst this
      exact Chunks.nil
  | succ n ih =>
      intro l hl h
      cases h with
      | nil => exact Chunks.nil
      | tag t rest ht hrest =>
          obtain ⟨t', rfl⟩ := hwf t ht
          rw [subDelimW_transparent stop o c _ rest
            (fun x hx he => (hstags _ ht) (he ▸ hx))]
          refine Chunks.append (Chunks.single_tag (hsub _ ht)) (ih rest ?_ hrest)
          have := hl
          simp at this
          omega
      | ent e rest he hrest =>
          obtain ⟨e', rfl⟩ := entities_wf e he
          rw [subDelimW_transparent stop o c _ rest
            (fun x hx he2 => (hsents _ he) (he2 ▸ hx))]
          refine Chunks.append ?_ (ih rest ?_ hrest)
          · have : Chunks ts' (('&' :: e') ++ []) := Chunks.ent _ [] he Chunks.nil
            simpa using this
          · have := hl
            simp at this
            omega
      | chr x rest hx1 hx2 hx3 hrest =>
          have hrl : rest.length ≤ n := by simpa using hl
          by_cases hxs : x = stop
          · subst hxs
            cases hsc : scanDelim x [] rest with
            | some p =>
                obtain ⟨content, rest2⟩ := p
                obtain ⟨mid, hm, hcontent⟩ :=
                  scanDelim_spec x rest [] content rest2 hsc
                rw [subDelimW_open_some x o c hsc]
                have hsplit := (Chunks.split hrest hwf hstags hsents) mid rest2 hm
                have hcontentC : Chunks ts content := by
                  rw [hcontent]
                  simpa using hsplit.1
                have hlen2 : rest2.length ≤ n := by
                  have := scanDelim_length x hsc
                  omega
                exact Chunks.append
                  (Chunks.append
                    (Chunks.append (Chunks.single_tag ho) (Chunks.mono hsub hcontentC))
                    (Chunks.single_tag hc))
                  (ih rest2 hlen2 hsplit.2)
            | none =>
                rw [subDelimW_open_none x o c hsc]
                exact Chunks.chr x _ hs1 hs2 hs3 (ih rest hrl hrest)
          · rw [subDelimW_cons stop o c x rest hxs]
            exact Chunks.chr x _ hx1 hx2 hx3 (ih rest hrl hrest)

/-- A successful bold scan splits its input at the first closing `**`. -/
theorem scanBold_spec :
    ∀ (l acc content rest2 : List Char),
      scanBold acc l = some (content, rest2) →
      ∃ mid, l = mid ++ '*' :: '*' :: rest2 ∧ content = acc.reverse ++ mid := by
  intro l
  induction l with
  | nil => intro acc content rest2 h; simp [scanBold] at h
  | cons c1 l' ih =>
      intro acc content rest2 h
      cases l' with
      | nil => simp [scanBold] at h
      | cons c2 rest =>
          rw [scanBold] at h
          by_cases hs : c1 = '*' ∧ c2 = '*' ∧ acc ≠ []
          · rw [if_pos hs] at h
            obtain ⟨h1, h2⟩ : acc.reverse = content ∧ rest = rest2 := by
              simpa using h
            exact ⟨[], by simp [hs.1, hs.2.1, h2], by simp [h1]⟩
          · rw [if_neg hs] at h
            by_cases hn : c1 = '\n'
            · rw [if_pos hn] at h; simp at h
            · rw [if_neg hn] at h
              obtain ⟨mid', hm1, hm2⟩ := ih (c1 :: acc) content rest2 h
              exact ⟨c1 :: mid', by simp [hm1], by simpa using hm2⟩

/-- A successful bold scan consumes at least the closing `**`. -/
theorem scanBold_length {l acc content rest2 : List Char}
    (h : scanBold acc l = some (content, rest2)) :
    rest2.length + 2 ≤ l.length := by
  obtain ⟨mid, hm, _⟩ := scanBold_spec l acc content rest2 h
  rw [hm]
  simp

/-- `subBoldF` does not depend on the fuel once it covers the length. -/
theorem subBoldF_mono :
    ∀ (f1 : Nat) (l : List Char) (f2 : Nat), l.length ≤ f1 → l.length ≤ f2 →
      subBoldF f1 l = subBoldF f2 l := by
  intro f1
  induction f1 with
  | zero =>
      intro l f2 h1 _
      have : l = [] := List.length_eq_zero.1 (Nat.le_zero.1 h1)
      subst this
      cases f2 <;> rfl
  | succ n ih =>
      intro l f2 h1 h2
      cases l with
      | nil => cases f2 <;> rfl
      | cons c1 l' =>
          cases f2 with
          | zero => simp at h2
          | succ m =>
              cases l' with
              | nil => rfl
              | cons c2 rest =>
                  rw [subBoldF, subBoldF]
                  by_cases hx : c1 = '*' ∧ c2 = '*'
                  · rw [if_pos hx, if_pos hx]
                    cases hsc : scanBold [] rest with
                    | none =>
                        have hr1 : (c2 :: rest).length ≤ n := by simp at h1 ⊢; omega
                        have hr2 : (c2 :: rest).length ≤ m := by simp at h2 ⊢; omega
                        dsimp only
                        rw [ih (c2 :: rest) m hr1 hr2]
                    | some p =>
                        obtain ⟨content, rest2⟩ := p
                        have hlen := scanBold_length hsc
                        have hr1 : rest2.length ≤ n := by simp at h1; omega
                        have hr2 : rest2.length ≤ m := by simp at h2; omega
                        dsimp only
                        rw [ih rest2 m hr1 hr2]
                  · rw [if_neg hx, if_neg hx]
                    have hr1 : (c2 :: rest).length ≤ n := by simp at h1 ⊢; omega
                    have hr2 : (c2 :: rest).length ≤ m := by simp at h2 ⊢; omega
                    rw [ih (c2 :: rest) m hr1 hr2]

/-- At canonical fuel: a position not starting `**` passes one character
through. -/
theorem subBoldW_cons2 {c1 c2 : Char} (rest : List Char)
    (h : ¬(c1 = '*' ∧ c2 = '*')) :
    subBoldF (c1 :: c2 :: rest).length (c1 :: c2 :: rest)
      = c1 :: subBoldF (c2 :: rest).length (c2 :: rest) := by
  rw [show (c1 :: c2 :: rest).length = (c2 :: rest).length + 1 from rfl,
    subBoldF, if_neg h]

/-- At canonical fuel: a non-asterisk head character passes through. -/
theorem subBoldW_cons_ne {x : Char} (l : List Char) (hx : x ≠ '*') :
    subBoldF (x :: l).length (x :: l) = x :: subBoldF l.length l := by
  cases l with
  | nil => rfl
  | cons y rest => exact subBoldW_cons2 rest (fun hc => hx hc.1)

/-- At canonical fuel: a matched `**` opening wraps the group in
`<b>`/`</b>` and continues after the closing `**`. -/
theorem subBoldW_open_some {rest content rest2 : List Char}
    (h : scanBold [] rest = some (content, rest2)) :
    subBoldF ('*' :: '*' :: rest).length ('*' :: '*' :: rest)
      = "<b>".data ++ content ++ "</b>".data ++ subBoldF rest2.length rest2 := by
  rw [show ('*' :: '*' :: rest).length = rest.length + 1 + 1 from by simp,
    subBoldF, if_pos ⟨rfl, rfl⟩, h]
  dsimp only
  rw [subBoldF_mono (rest.length + 1) rest2 rest2.length
    (by have := scanBold_length h; omega) (le_refl _)]

/-- At canonical fuel: an unmatched `**` emits one `*` and rescans from
the second `*`, as `re.sub` does. -/
theorem subBoldW_open_none {rest : List Char}
    (h : scanBold [] rest = none) :
    subBoldF ('*' :: '*' :: rest).length ('*' :: '*' :: rest)
      = '*' :: subBoldF ('*' :: rest).length ('*' :: rest) := by
  rw [show ('*' :: '*' :: rest).length = rest.length + 1 + 1 from by simp,
    subBoldF, if_pos ⟨rfl, rfl⟩, h]
  rfl

/-- An asterisk-free prefix passes through the bold pass. -/
theorem subBoldW_transparent :
    ∀ (t l : List Char), (∀ x ∈ t, x ≠ '*') →
      subBoldF (t ++ l).length (t ++ l) = t ++ subBoldF l.length l := by
  intro t
  induction t with
  | nil => intro l _; rfl
  | cons x t' ih =>
      intro l h
      rw [List.cons_append, subBoldW_cons_ne (t' ++ l) (h x (by simp)),
        ih l (fun y hy => h y (by simp [hy]))]
      rfl

/-- An asterisk-free string is untouched by the bold pass. -/
theorem subBoldW_id :
    ∀ (l : List Char), (∀ x ∈ l, x ≠ '*') → subBoldF l.length l = l := by
  intro l
  induction l with
  | nil => intro _; rfl
  | cons x rest ih =>
      intro h
      rw [subBoldW_cons_ne rest (h x (by simp)), ih (fun y hy => h y (by simp [hy]))]

/-- Safety of the bold pass: chunked input over `ts` yields chunked
output over `ts` plus the `<b>` tags. -/
theorem subBold_chunks (ts ts' : List (List Char))
    (hsub : ∀ t ∈ ts, t ∈ ts') (hb1 : "<b>".data ∈ ts') (hb2 : "</b>".data ∈ ts')
    (hwf : TagsWF ts)
    (hstags : ∀ t ∈ ts, '*' ∉ t) (hsents : ∀ e ∈ entities, '*' ∉ e) :
    ∀ (n : Nat) (l : List Char), l.length ≤ n → Chunks ts l →
      Chunks ts' (subBoldF l.length l) := by
  intro n
  induction n with
  | zero =>
      intro l hl _
      have : l = [] := List.length_eq_zero.1 (Nat.le_zero.1 hl)
      subst this
      exact Chunks.nil
  | succ n ih =>
      intro l hl h
      cases h with
      | nil => exact Chunks.nil
      | tag t rest ht hrest =>
          obtain ⟨t', rfl⟩ := hwf t ht
          rw [subBoldW_transparent _ rest (fun x hx he => (hstags _ ht) (he ▸ hx))]
          refine Chunks.append (Chunks.single_tag (hsub _ ht)) (ih rest ?_ hrest)
          have := hl
          simp at this
          omega
      | ent e rest he hrest =>
          obtain ⟨e', rfl⟩ := entities_wf e he
          rw [subBoldW_transparent _ rest (fun x hx he2 => (hsents _ he) (he2 ▸ hx))]
          refine Chunks.append ?_ (ih rest ?_ hrest)
          · have : Chunks ts' (('&' :: e') ++ []) := Chunks.ent _ [] he Chunks.nil
            simpa using this
          · have := hl
            simp at this
            omega
      | chr x rest hx1 hx2 hx3 hrest =>
          have hrl : rest.length ≤ n := by simpa using hl
          by_cases hxs : x = '*'
          · subst hxs
            cases rest with
            | nil =>
                rw [show subBoldF (['*'] : List Char).length ['*'] = ['*'] from rfl]
                exact Chunks.chr '*' [] (by decide) (by decide) (by decide) Chunks.nil
            | cons c2 rest' =>
                by_cases hc2 : c2 = '*'
                · subst hc2
                  have hrest' : Chunks ts rest' :=
                    Chunks.cons_inv hrest hwf hstags hsents
                  cases hsc : scanBold [] rest' with
                  | some p =>
                      obtain ⟨content, rest2⟩ := p
                      obtain ⟨mid, hm, hcontent⟩ :=
                        scanBold_spec rest' [] content rest2 hsc
                      rw [subBoldW_open_some hsc]
                      have hsplit :=
                        (Chunks.split hrest' hwf hstags hsents) mid ('*' :: rest2) hm
                      have hrest2 : Chunks ts rest2 :=
                        Chunks.cons_inv hsplit.2 hwf hstags hsents
                      have hcontentC : Chunks ts content := by
                        rw [hcontent]
                        simpa using hsplit.1
                      have hlen2 : rest2.length ≤ n := by
                        have h2 := scanBold_length hsc
                        simp at hl
                        omega
                      exact Chunks.append
                        (Chunks.append
                          (Chunks.append (Chunks.single_tag hb1)
                            (Chunks.mono hsub hcontentC))
                          (Chunks.single_tag hb2))
                        (ih rest2 hlen2 hrest2)
                  | none =>
                      rw [subBoldW_open_none hsc]
                      have hlt : ('*' :: rest').length ≤ n := by
                        simp at hl ⊢
                        omega
                      exact Chunks.chr '*' _ (by decide) (by decide) (by decide)
                        (ih ('*' :: rest') hlt hrest)
                · rw [subBoldW_cons2 rest' (fun hc => hc2 hc.2)]
                  exact Chunks.chr '*' _ (by decide) (by decide) (by decide)
                    (ih (c2 :: rest') hrl hrest)
          · rw [subBoldW_cons_ne rest hxs]
            exact Chunks.chr x _ hx1 hx2 hx3 (ih rest hrl hrest)

theorem splitlines_break_ncr {c : Char} (l : List Char)
    (hb : isLineBreakChar c = true) (hc : c ≠ '\r') :
    splitlines (c :: l) = [] :: splitlines l := by
  rw [splitlines.eq_3 c l (fun r h1 _ => hc h1), if_pos hb]

theorem splitlines_cr_other {l : List Char}
    (h : ∀ rest, l ≠ '\n' :: rest) :
    splitlines ('\r' :: l) = [] :: splitlines l := by
  rw [splitlines.eq_3 '\r' l (fun r _ h2 => h r h2), if_pos (by decide)]

theorem splitlines_cons_nobreak {c : Char} (l : List Char)
    (hb : isLineBreakChar c = false) :
    splitlines (c :: l)
      = (c :: (splitlines l).headD []) :: (splitlines l).tail := by
  have hc : c ≠ '\r' := fun he => by rw [he] at hb; exact absurd hb (by decide)
  rw [splitlines.eq_3 c l (fun r h1 _ => hc h1), if_neg (by simp [hb])]
  cases hs : splitlines l with
  | nil => rfl
  | cons p ps => rfl

theorem splitlines_ne_nil (l : List Char) (h : l ≠ []) : splitlines l ≠ [] := by
  cases l with
  | nil => exact absurd rfl h
  | cons c rest =>
      by_cases hb : isLineBreakChar c
      · by_cases hc : c = '\r'
        · subst hc
          cases rest with
          | nil =>
              rw [@splitlines_cr_other [] (fun r h => by simp at h)]
              simp
          | cons c2 rest2 =>
              by_cases hn : c2 = '\n'
              · subst hn
                rw [splitlines.eq_2]
                simp
              · rw [splitlines_cr_other (fun r hr => hn (by injection hr))]
                simp
        · rw [splitlines_break_ncr rest hb hc]
          simp
      · rw [splitlines_cons_nobreak rest (by simpa using hb)]
        simp

theorem splitlines_append_nobreak :
    ∀ (t l : List Char), t ≠ [] → (∀ x ∈ t, isLineBreakChar x = false) →
      splitlines (t ++ l)
        = (t ++ (splitlines l).headD []) :: (splitlines l).tail := by
  intro t
  induction t with
  | nil => intro l h; exact absurd rfl h
  | cons x t' ih =>
      intro l _ hall
      have hx : isLineBreakChar x = false := hall x (by simp)
      by_cases ht' : t' = []
      · subst ht'
        simpa using splitlines_cons_nobreak l hx
      · rw [List.cons_append, splitlines_cons_nobreak (t' ++ l) hx,
          ih l ht' (fun z hz => hall z (by simp [hz]))]
        simp

theorem entities_nobreak : ∀ e ∈ entities, ∀ x ∈ e, isLineBreakChar x = false := by
  decide

theorem splitlines_chunks {ts : List (List Char)} {l : List Char}
    (h : Chunks ts l) (hwf : TagsWF ts)
    (hnb : ∀ t ∈ ts, ∀ x ∈ t, isLineBreakChar x = false) :
    ∀ p ∈ splitlines l, Chunks ts p := by
  induction h with
  | nil => intro p hp; rw [splitlines.eq_1] at hp; simp at hp
  | tag t rest ht hrest ih =>
      intro p hp
      have htne : t ≠ [] := by
        obtain ⟨t', rfl⟩ := hwf t ht
        simp
      rw [splitlines_append_nobreak t rest htne (hnb t ht)] at hp
      rcases List.mem_cons.1 hp with rfl | hp2
      · cases hs : splitlines rest with
        | nil =>
            simpa using Chunks.single_tag ht
        | cons q qs =>
            exact Chunks.append (Chunks.single_tag ht) (ih q (by rw [hs]; simp))
      · apply ih
        cases hs : splitlines rest with
        | nil => rw [hs] at hp2; simp at hp2
        | cons q qs =>
            rw [hs] at hp2
            exact List.mem_cons_of_mem q hp2
  | ent e rest he hrest ih =>
      intro p hp
      have hene : e ≠ [] := by
        obtain ⟨e', rfl⟩ := entities_wf e he
        simp
      rw [splitlines_append_nobreak e rest hene (entities_nobreak e he)] at hp
      rcases List.mem_cons.1 hp with rfl | hp2
      · cases hs : splitlines rest with
        | nil =>
            have : Chunks ts (e ++ []) := Chunks.ent e [] he Chunks.nil
            simpa using this
        | cons q qs =>
            refine Chunks.append ?_ (ih q (by rw [hs]; simp))
            have : Chunks ts (e ++ []) := Chunks.ent e [] he Chunks.nil
            simpa using this
      · apply ih
        cases hs : splitlines rest with
        | nil => rw [hs] at hp2; simp at hp2
        | cons q qs =>
            rw [hs] at hp2
            exact List.mem_cons_of_mem q hp2
  | chr c rest h1 h2 h3 hrest ih =>
      intro p hp
      by_cases hb : isLineBreakChar c
      · by_cases hc : c = '\r'
        · subst hc
          cases rest with
          | nil =>
              rw [@splitlines_cr_other [] (fun r hr => by simp at hr)] at hp
              rw [splitlines.eq_1] at hp
              have : p = [] := by simpa using hp
              subst this
              exact Chunks.nil
          | cons c2 rest2 =>
              by_cases hn : c2 = '\n'
              · subst hn
                rw [splitlines.eq_2] at hp
                rcases List.mem_cons.1 hp with rfl | hp2
                · exact Chunks.nil
                · apply ih
                  rw [splitlines_break_ncr rest2 (by decide) (by decide)]
                  exact List.mem_cons_of_mem _ hp2
              · rw [splitlines_cr_other (fun r hr => hn (by injection hr))] at hp
                rcases List.mem_cons.1 hp with rfl | hp2
                · exact Chunks.nil
                · exact ih p hp2
        · rw [splitlines_break_ncr rest hb hc] at hp
          rcases List.mem_cons.1 hp with rfl | hp2
          · exact Chunks.nil
          · exact ih p hp2
      · rw [splitlines_cons_nobreak rest (by simpa using hb)] at hp
        rcases List.mem_cons.1 hp with rfl | hp2
        · cases hs : splitlines rest with
          | nil =>
              exact Chunks.chr c [] h1 h2 h3 Chunks.nil
          | cons q qs =>
              exact Chunks.chr c q h1 h2 h3 (ih q (by rw [hs]; simp))
        · apply ih
          cases hs : splitlines rest with
          | nil => rw [hs] at hp2; simp at hp2
          | cons q qs =>
              rw [hs] at hp2
              exact List.mem_cons_of_mem q hp2

theorem joinSep_cons2 (sep x y : List Char) (ys : List (List Char)) :
    joinSep sep (x :: y :: ys) = x ++ sep ++ joinSep sep (y :: ys) := rfl

theorem splitlines_join :
    ∀ (lines : List (List Char)), lines ≠ [] →
      (∀ p ∈ lines, p ≠ [] ∧ ∀ x ∈ p, isLineBreakChar x = false) →
      splitlines (joinSep ['\n'] lines) = lines := by
  intro lines
  induction lines with
  | nil => intro h; exact absurd rfl h
  | cons p ps ih =>
      intro _ hall
      cases ps with
      | nil =>
          have h1 := (hall p (by simp)).1
          have h2 := (hall p (by simp)).2
          have := splitlines_append_nobreak p [] h1 h2
          simpa [splitlines.eq_1] using this
      | cons q qs =>
          rw [joinSep_cons2, List.append_assoc, List.singleton_append]
          rw [splitlines_append_nobreak p ('\n' :: joinSep ['\n'] (q :: qs))
            (hall p (by simp)).1 (hall p (by simp)).2]
          rw [splitlines_break_ncr _ (by decide) (by decide)]
          rw [ih (by simp) (fun r hr => hall r (by simp [hr]))]
          simp

/-- The inline-code pass turns a tag-free decomposition into a `tsC` one. -/
theorem chunks_subCode {l : List Char} (h : Chunks [] l) : Chunks tsC (subCode l) :=
  subDelim_chunks '`' "<code>".data "</code>".data [] tsC
    (by simp) (by decide) (by decide)
    (fun t ht => absurd ht (List.not_mem_nil t))
    (fun t ht => absurd ht (List.not_mem_nil t))
    (by decide) (by decide) (by decide) (by decide)
    l.length l le_rfl h

/-- The bold pass preserves decompositions, adding the `<b>` tags. -/
theorem chunks_subBold {l : List Char} (h : Chunks tsC l) : Chunks tsCB (subBold l) :=
  subBold_chunks tsC tsCB (by decide) (by decide) (by decide)
    (tagsWF_of_head (by decide)) (by decide) (by decide)
    l.length l le_rfl h

/-- The italic pass preserves decompositions, adding the `<i>` tags. -/
theorem chunks_subItal {l : List Char} (h : Chunks tsCB l) : Chunks tsCBI (subItal l) :=
  subDelim_chunks '*' "<i>".data "</i>".data tsCB tsCBI
    (by decide) (by decide) (by decide)
    (tagsWF_of_head (by decide)) (by decide) (by decide)
    (by decide) (by decide) (by decide)
    l.length l le_rfl h

/-- The group captured by the bullet regex inherits the decomposition of
the line: the regex only strips leading whitespace, a marker and more
whitespace, never cutting into a tag or an entity. -/
theorem matchBullet_chunks {line cap : List Char} (h : Chunks tsCBI line)
    (hm : matchBullet line = some cap) : Chunks tsCBI cap := by
  have hwf : TagsWF tsCBI := tagsWF_of_head (by decide)
  have h1 : Chunks tsCBI (line.dropWhile isPySpace) :=
    Chunks.dropWhile h hwf (by decide) (by decide)
  unfold matchBullet at hm
  cases hd : line.dropWhile isPySpace with
  | nil => rw [hd] at hm; simp at hm
  | cons c rest =>
      rw [hd] at hm h1
      dsimp only at hm
      by_cases hc : c = '-' ∨ c = '*'
      · rw [if_pos hc] at hm
        by_cases he : (rest.takeWhile isPySpace).isEmpty
        · rw [if_pos he] at hm; simp at hm
        · rw [if_neg he] at hm
          have hcap : cap = rest.dropWhile isPySpace := by
            have := hm.symm
            simpa using this
          have hrest : Chunks tsCBI rest := by
            rcases hc with rfl | rfl
            · exact Chunks.cons_inv h1 hwf (by decide) (by decide)
            · exact Chunks.cons_inv h1 hwf (by decide) (by decide)
          rw [hcap]
          exact Chunks.dropWhile hrest hwf (by decide) (by decide)
      · rw [if_neg hc] at hm; simp at hm

/-- The group captured by the numbered-list regex inherits the
decomposition of the line. -/
theorem matchNumbered_chunks {line cap : List Char} (h : Chunks tsCBI line)
    (hm : matchNumbered line = some cap) : Chunks tsCBI cap := by
  have hwf : TagsWF tsCBI := tagsWF_of_head (by decide)
  have h1 : Chunks tsCBI (line.dropWhile isPySpace) :=
    Chunks.dropWhile h hwf (by decide) (by decide)
  have h2 : Chunks tsCBI ((line.dropWhile isPySpace).dropWhile Char.isDigit) :=
    Chunks.dropWhile h1 hwf (by decide) (by decide)
  unfold matchNumbered at hm
  simp only at hm
  by_cases he : ((line.dropWhile isPySpace).takeWhile Char.isDigit).isEmpty
  · rw [if_pos he] at hm; simp at hm
  · rw [if_neg he] at hm
    cases hd : (line.dropWhile isPySpace).dropWhile Char.isDigit with
    | nil => rw [hd] at hm; simp at hm
    | cons c rest2 =>
        rw [hd] at hm h2
        dsimp only at hm
        by_cases hc : c = '.'
        · rw [if_pos hc] at hm
          subst hc
          by_cases he2 : (rest2.takeWhile isPySpace).isEmpty
          · rw [if_pos he2] at hm; simp at hm
          · rw [if_neg he2] at hm
            have hcap : cap = rest2.dropWhile isPySpace := by
              have := hm.symm
              simpa using this
            have hrest : Chunks tsCBI rest2 :=
              Chunks.cons_inv h2 hwf (by decide) (by decide)
            rw [hcap]
            exact Chunks.dropWhile hrest hwf (by decide) (by decide)
        · rw [if_neg hc] at hm; simp at hm

/-- Wrapping a decomposed capture in `<li>...</li>` stays decomposed. -/
theorem liWrap_chunks {cap : List Char} (h : Chunks tsCBI cap) :
    Chunks tsAll (liWrap cap) := by
  rw [liWrap, List.append_assoc]
  exact Chunks.tag _ _ (by decide)
    (Chunks.append (Chunks.mono (by decide) h) (Chunks.single_tag (by decide)))

/-- Equation for the line loop on the empty list. -/
theorem processLines_nil (inUl inOl : Bool) :
    processLines [] inUl inOl
      = (if inUl then ["</ul>".data] else []) ++ (if inOl then ["</ol>".data] else []) := by
  rw [processLines]

/-- Equation for the line loop on a non-empty list. -/
theorem processLines_cons (line : List Char) (rest : List (List Char)) (inUl inOl : Bool) :
    processLines (line :: rest) inUl inOl
      = match matchBullet line with
        | some cap =>
            (if inUl then [] else [ulOpenTag]) ++ [liWrap cap] ++ processLines rest true inOl
        | none =>
            match matchNumbered line with
            | some cap =>
                (if inOl then [] else [olOpenTag]) ++ [liWrap cap] ++ processLines rest inUl true
            | none =>
                (if inUl then ["</ul>".data] else []) ++ (if inOl then ["</ol>".data] else [])
                  ++ [line] ++ processLines rest false false := by
  rw [processLines]

/-- Every line the list pass emits is decomposed over the full tag set:
it only ever emits list tags, `<li>`-wrapped captures, and the original
lines. -/
theorem processLines_chunks :
    ∀ (lines : List (List Char)) (inUl inOl : Bool),
      (∀ line ∈ lines, Chunks tsCBI line) →
      ∀ p ∈ processLines lines inUl inOl, Chunks tsAll p := by
  intro lines
  induction lines with
  | nil =>
      intro inUl inOl _ p hp
      rw [processLines_nil] at hp
      have hp2 : p = "</ul>".data ∨ p = "</ol>".data := by
        cases inUl <;> cases inOl <;> simp at hp <;> tauto
      rcases hp2 with rfl | rfl
      · exact Chunks.single_tag (by decide)
      · exact Chunks.single_tag (by decide)
  | cons line rest ih =>
      intro inUl inOl hall p hp
      rw [processLines_cons] at hp
      have hline : Chunks tsCBI line := hall line (by simp)
      have hrest : ∀ l ∈ rest, Chunks tsCBI l := fun l hl => hall l (by simp [hl])
      cases hb : matchBullet line with
      | some cap =>
          rw [hb] at hp
          dsimp only at hp
          have hli : Chunks tsAll (liWrap cap) :=
            liWrap_chunks (matchBullet_chunks hline hb)
          have hp2 : p = ulOpenTag ∨ p = liWrap cap ∨ p ∈ processLines rest true inOl := by
            cases inUl <;> simp at hp <;> tauto
          rcases hp2 with rfl | rfl | hmem
          · exact Chunks.single_tag (by decide)
          · exact hli
          · exact ih true inOl hrest p hmem
      | none =>
          rw [hb] at hp
          dsimp only at hp
          cases hn : matchNumbered line with
          | some cap =>
              rw [hn] at hp
              dsimp only at hp
              have hli : Chunks tsAll (liWrap cap) :=
                liWrap_chunks (matchNumbered_chunks hline hn)
              have hp2 : p = olOpenTag ∨ p = liWrap cap ∨ p ∈ processLines rest inUl true := by
                cases inOl <;> simp at hp <;> tauto
              rcases hp2 with rfl | rfl | hmem
              · exact Chunks.single_tag (by decide)
              · exact hli
              · exact ih inUl true hrest p hmem
          | none =>
              rw [hn] at hp
              dsimp only at hp
              have hp2 : p = "</ul>".data ∨ p = "</ol>".data ∨ p = line
                  ∨ p ∈ processLines rest false false := by
                cases inUl <;> cases inOl <;> simp at hp <;> tauto
              rcases hp2 with rfl | rfl | rfl | hmem
              · exact Chunks.single_tag (by decide)
              · exact Chunks.single_tag (by decide)
              · exact Chunks.mono (by decide) hline
              · exact ih false false hrest p hmem

/-- Joining decomposed lines with the `<br>` tag stays decomposed. -/
theorem joinSep_chunks :
    ∀ (ps : List (List Char)), (∀ p ∈ ps, Chunks tsAll p) →
      Chunks tsAll (joinSep "<br>".data ps) := by
  intro ps
  induction ps with
  | nil => intro _; exact Chunks.nil
  | cons p ps ih =>
      intro hall
      cases ps with
      | nil => exact hall p (by simp)
      | cons q qs =>
          rw [joinSep_cons2, List.append_assoc]
          exact Chunks.append (hall p (by simp))
            (Chunks.append (Chunks.single_tag (by decide))
              (ih (fun r hr => hall r (by simp [hr]))))

/-- C1: for every input, the output of `markdown_to_html` decomposes into
renderer-inserted tags, the escape entities `&amp;` / `&lt;` / `&gt;`, and
plain characters other than `<`, `>`, `&` — so every `&`, `<`, `>` of the
input is escaped before any markup substitution and no unescaped
occurrence survives outside the tags the renderer itself inserts. -/
theorem markdown_to_html_output_safe (text : List Char) :
    SafeHtml (markdown_to_html text) := by
  rw [markdown_to_html]
  by_cases ht : text.isEmpty
  · rw [if_pos ht]
    exact Chunks.nil
  · rw [if_neg ht]
    have h0 := chunks_escape text
    have h1 : Chunks tsC (subCode (escapeHtml text)) := chunks_subCode h0
    have h2 : Chunks tsCB (subBold (subCode (escapeHtml text))) := chunks_subBold h1
    have h3 : Chunks tsCBI (subItal (subBold (subCode (escapeHtml text)))) := chunks_subItal h2
    have hlines :=
      splitlines_chunks h3 (tagsWF_of_head (by decide)) (by decide)
    have hproc := processLines_chunks _ false false hlines
    exact joinSep_chunks _ hproc

set_option maxRecDepth 4096 in
/-- C2: counterexample to the kind-switch part of the claim.  Rendering
`"- a\n1. b"`, the `<ol` opener appears at index 63 while the closing
`</ul>` only appears at index 126: a numbered line immediately following
a bullet run opens the `<ol>` while the `<ul>` is still open, so the
renderer does not close the current list before continuing. -/
theorem markdown_list_kind_switch_counterexample :
    subIndex "<ol".data (markdown_to_html "- a\n1. b".data) = some 63
    ∧ subIndex "</ul>".data (markdown_to_html "- a\n1. b".data) = some 126
    ∧ 63 < 126 := by
  refine ⟨?_, ?_, by decide⟩ <;> rfl

/-- Unpacking `plainChar`. -/
theorem plainChar_prop {x : Char} (h : plainChar x = true) :
    x ≠ '&' ∧ x ≠ '<' ∧ x ≠ '>' ∧ x ≠ '`' ∧ x ≠ '*' ∧ isLineBreakChar x = false := by
  simp [plainChar] at h
  exact ⟨h.1.1, h.1.2.1, h.1.2.2.1, h.1.2.2.2.1, h.1.2.2.2.2, h.2⟩

/-- Unpacking `goodItem`. -/
theorem goodItem_facts {it : List Char} (h : goodItem it = true) :
    it ≠ [] ∧ isPySpace (it.headD ' ') = false
    ∧ ∀ x ∈ it, plainChar x = true := by
  cases it with
  | nil => simp [goodItem] at h
  | cons c cs =>
      simp only [goodItem, Bool.and_eq_true, Bool.not_eq_true'] at h
      refine ⟨by simp, by simpa using h.1, ?_⟩
      simpa [List.all_eq_true] using h.2

/-- A character of a join comes from a line or from the separator. -/
theorem mem_joinSep {x : Char} {sep : List Char} :
    ∀ {lines : List (List Char)}, x ∈ joinSep sep lines →
      (∃ p ∈ lines, x ∈ p) ∨ x ∈ sep := by
  intro lines
  induction lines with
  | nil => intro h; simp [joinSep] at h
  | cons p ps ih =>
      intro h
      cases ps with
      | nil => exact Or.inl ⟨p, by simp, by simpa [joinSep] using h⟩
      | cons q qs =>
          rw [joinSep_cons2] at h
          simp only [List.append_assoc, List.mem_append] at h
          rcases h with hp | hs | hj
          · exact Or.inl ⟨p, by simp, hp⟩
          · exact Or.inr hs
          · rcases ih hj with ⟨r, hr, hx⟩ | hs
            · exact Or.inl ⟨r, by simp [hr], hx⟩
            · exact Or.inr hs

/-- The escape stage is the identity when nothing needs escaping. -/
theorem escapeHtml_id {l : List Char} (h1 : '&' ∉ l) (h2 : '<' ∉ l) (h3 : '>' ∉ l) :
    escapeHtml l = l := by
  rw [escapeHtml, replaceChar_of_not_mem "&amp;".data h1,
    replaceChar_of_not_mem "&lt;".data h2, replaceChar_of_not_mem "&gt;".data h3]

/-- The bullet regex matches a bullet line and captures its content. -/
theorem matchBullet_bulletize {it : List Char} (h : goodItem it = true) :
    matchBullet (bulletize it) = some it := by
  obtain ⟨hne, hhead, _⟩ := goodItem_facts h
  unfold matchBullet bulletize
  rw [List.dropWhile_cons, if_neg (by decide : ¬(isPySpace '-' = true))]
  dsimp only
  rw [if_pos (Or.inl rfl)]
  rw [List.takeWhile_cons, if_pos (by decide : isPySpace ' ' = true)]
  simp only [List.isEmpty_cons]
  rw [if_neg (by decide : ¬(false = true))]
  rw [List.dropWhile_cons, if_pos (by decide : isPySpace ' ' = true)]
  cases it with
  | nil => exact absurd rfl hne
  | cons c cs =>
      rw [List.dropWhile_cons, if_neg (by simpa using hhead)]

/-- The bullet regex rejects a numbered line. -/
theorem matchBullet_numberize (last : List Char) :
    matchBullet (numberize last) = none := by
  unfold matchBullet numberize
  rw [List.dropWhile_cons, if_neg (by decide : ¬(isPySpace '1' = true))]
  dsimp only
  rw [if_neg (by decide : ¬('1' = '-' ∨ '1' = '*'))]

/-- The numbered regex matches a numbered line and captures its content. -/
theorem matchNumbered_numberize {last : List Char} (h : goodItem last = true) :
    matchNumbered (numberize last) = some last := by
  obtain ⟨hne, hhead, _⟩ := goodItem_facts h
  unfold matchNumbered numberize
  rw [List.dropWhile_cons, if_neg (by decide : ¬(isPySpace '1' = true))]
  dsimp only
  rw [List.takeWhile_cons, if_pos (by decide : Char.isDigit '1' = true)]
  rw [List.dropWhile_cons, if_pos (by decide : Char.isDigit '1' = true)]
  rw [List.dropWhile_cons, if_neg (by decide : ¬(Char.isDigit '.' = true))]
  rw [if_neg (by simp)]
  dsimp only
  rw [if_pos rfl]
  rw [List.takeWhile_cons, if_pos (by decide : isPySpace ' ' = true)]
  simp only [List.isEmpty_cons]
  rw [if_neg (by decide : ¬(false = true))]
  rw [List.dropWhile_cons, if_pos (by decide : isPySpace ' ' = true)]
  cases last with
  | nil => exact absurd rfl hne
  | cons c cs =>
      rw [List.dropWhile_cons, if_neg (by simpa using hhead)]

/-- Inside an open `<ul>`, a run of bullet lines emits one `<li>` line
per item and a single closing `</ul>`. -/
theorem processLines_bullets_true :
    ∀ (items : List (List Char)), (∀ it ∈ items, goodItem it = true) →
      processLines (items.map bulletize) true false
        = items.map liWrap ++ ["</ul>".data] := by
  intro items
  induction items with
  | nil =>
      intro _
      rw [List.map_nil, processLines_nil]
      simp
  | cons it rest ih =>
      intro hall
      rw [List.map_cons, processLines_cons, matchBullet_bulletize (hall it (by simp))]
      dsimp only
      rw [ih (fun z hz => hall z (by simp [hz]))]
      simp

/-- Inside an open `<ul>`, a bullet run followed by one numbered line
emits the `<li>` lines, then opens the `<ol>` while the `<ul>` is still
open, closing both only at the end — first `</ul>`, then `</ol>`. -/
theorem processLines_bullets_then_num :
    ∀ (items : List (List Char)) (last : List Char),
      (∀ it ∈ items, goodItem it = true) → goodItem last = true →
      processLines (items.map bulletize ++ [numberize last]) true false
        = items.map liWrap ++ [olOpenTag, liWrap last, "</ul>".data, "</ol>".data] := by
  intro items last
  induction items with
  | nil =>
      intro _ hlast
      rw [List.map_nil, List.nil_append, processLines_cons,
        matchBullet_numberize last]
      dsimp only
      rw [matchNumbered_numberize hlast]
      dsimp only
      rw [processLines_nil]
      simp
  | cons it rest ih =>
      intro hall hlast
      rw [List.map_cons, List.cons_append, processLines_cons,
        matchBullet_bulletize (hall it (by simp))]
      dsimp only
      rw [ih (fun z hz => hall z (by simp [hz])) hlast]
      simp

/-- A join of non-empty lines is non-empty. -/
theorem joinSep_ne_nil {sep : List Char} :
    ∀ {lines : List (List Char)}, lines ≠ [] → (∀ p ∈ lines, p ≠ []) →
      joinSep sep lines ≠ [] := by
  intro lines hne hall
  cases lines with
  | nil => exact absurd rfl hne
  | cons p ps =>
      cases ps with
      | nil => exact hall p (by simp)
      | cons q qs =>
          rw [joinSep_cons2]
          intro hcon
          rcases List.append_eq_nil.1 (List.append_eq_nil.1 hcon).1 with ⟨hp, _⟩
          exact hall p (by simp) hp

/-- Bullet and numbered lines over good items contain no break characters
and no characters any inline pass touches. -/
theorem listLines_ok {lines : List (List Char)}
    (h : ∀ p ∈ lines, (∃ it, goodItem it = true ∧ p = bulletize it) ∨
                      (∃ it, goodItem it = true ∧ p = numberize it)) :
    (∀ p ∈ lines, p ≠ [] ∧ ∀ x ∈ p, isLineBreakChar x = false)
    ∧ (∀ x ∈ joinSep ['\n'] lines,
        x ≠ '&' ∧ x ≠ '<' ∧ x ≠ '>' ∧ x ≠ '`' ∧ x ≠ '*') := by
  have hchar : ∀ p ∈ lines, ∀ x ∈ p,
      isLineBreakChar x = false ∧ x ≠ '&' ∧ x ≠ '<' ∧ x ≠ '>' ∧ x ≠ '`' ∧ x ≠ '*' := by
    intro p hp x hx
    rcases h p hp with ⟨it, hg, rfl⟩ | ⟨it, hg, rfl⟩
    · rcases (by simpa [bulletize] using hx : x = '-' ∨ x = ' ' ∨ x ∈ it) with rfl | rfl | hxm
      · exact ⟨by decide, by decide, by decide, by decide, by decide, by decide⟩
      · exact ⟨by decide, by decide, by decide, by decide, by decide, by decide⟩
      · have hpc := plainChar_prop ((goodItem_facts hg).2.2 x hxm)
        exact ⟨hpc.2.2.2.2.2, hpc.1, hpc.2.1, hpc.2.2.1, hpc.2.2.2.1, hpc.2.2.2.2.1⟩
    · rcases (by simpa [numberize] using hx : x = '1' ∨ x = '.' ∨ x = ' ' ∨ x ∈ it)
        with rfl | rfl | rfl | hxm
      · exact ⟨by decide, by decide, by decide, by decide, by decide, by decide⟩
      · exact ⟨by decide, by decide, by decide, by decide, by decide, by decide⟩
      · exact ⟨by decide, by decide, by decide, by decide, by decide, by decide⟩
      · have hpc := plainChar_prop ((goodItem_facts hg).2.2 x hxm)
        exact ⟨hpc.2.2.2.2.2, hpc.1, hpc.2.1, hpc.2.2.1, hpc.2.2.2.1, hpc.2.2.2.2.1⟩
  constructor
  · intro p hp
    refine ⟨?_, fun x hx => (hchar p hp x hx).1⟩
    rcases h p hp with ⟨it, _, rfl⟩ | ⟨it, _, rfl⟩
    · simp [bulletize]
    · simp [numberize]
  · intro x hx
    rcases mem_joinSep hx with ⟨p, hp, hxp⟩ | hsep
    · exact (hchar p hp x hxp).2
    · have : x = '\n' := by simpa using hsep
      subst this
      exact ⟨by decide, by decide, by decide, by decide, by decide⟩

/-- On pure list input the whole inline pipeline is the identity, so
`markdown_to_html` reduces to the line loop joined with `<br>`. -/
theorem listLines_pipeline {lines : List (List Char)}
    (hlines : ∀ p ∈ lines, (∃ it, goodItem it = true ∧ p = bulletize it) ∨
                           (∃ it, goodItem it = true ∧ p = numberize it))
    (hne : lines ≠ []) :
    markdown_to_html (joinSep ['\n'] lines)
      = joinSep "<br>".data (processLines lines false false) := by
  obtain ⟨hA, hB⟩ := listLines_ok hlines
  have htne : joinSep ['\n'] lines ≠ [] :=
    joinSep_ne_nil hne (fun p hp => (hA p hp).1)
  rw [markdown_to_html, if_neg (by simpa [List.isEmpty_iff] using htne)]
  have hesc : escapeHtml (joinSep ['\n'] lines) = joinSep ['\n'] lines :=
    escapeHtml_id (fun hm => absurd rfl (hB _ hm).1)
      (fun hm => absurd rfl (hB _ hm).2.1)
      (fun hm => absurd rfl (hB _ hm).2.2.1)
  rw [hesc]
  have hcode : subCode (joinSep ['\n'] lines) = joinSep ['\n'] lines :=
    subDelimW_id '`' "<code>".data "</code>".data _ (fun x hx => (hB x hx).2.2.2.1)
  rw [hcode]
  have hbold : subBold (joinSep ['\n'] lines) = joinSep ['\n'] lines :=
    subBoldW_id _ (fun x hx => (hB x hx).2.2.2.2)
  rw [hbold]
  have hital : subItal (joinSep ['\n'] lines) = joinSep ['\n'] lines :=
    subDelimW_id '*' "<i>".data "</i>".data _ (fun x hx => (hB x hx).2.2.2.2)
  rw [hital]
  rw [splitlines_join lines hne hA]

/-- C2 (amended): a run of N consecutive bullet lines renders as exactly
one `<ul>` opener followed by the N `<li>`-wrapped items and one closing
`</ul>` — that half of the claim holds.  But a numbered line immediately
following the run renders with the `<ol>` opener inserted **before** the
`</ul>`: the output order is `<ul>`, the `<li>` items, `<ol>`, the
numbered `<li>`, `</ul>`, `</ol>`, so the open `<ul>` is *not* closed
before the `<ol>` opens. -/
theorem markdown_bullet_run_list_structure (items : List (List Char)) (last : List Char)
    (h1 : ∀ it ∈ items, goodItem it = true) (h2 : items ≠ [])
    (h3 : goodItem last = true) :
    markdown_to_html (joinSep ['\n'] (items.map bulletize))
      = joinSep "<br>".data (ulOpenTag :: (items.map liWrap ++ ["</ul>".data]))
    ∧ markdown_to_html (joinSep ['\n'] (items.map bulletize ++ [numberize last]))
      = joinSep "<br>".data
          (ulOpenTag :: (items.map liWrap
            ++ [olOpenTag, liWrap last, "</ul>".data, "</ol>".data])) := by
  constructor
  · have hlines : ∀ p ∈ items.map bulletize,
        (∃ it, goodItem it = true ∧ p = bulletize it) ∨
        (∃ it, goodItem it = true ∧ p = numberize it) := by
      intro p hp
      rw [List.mem_map] at hp
      obtain ⟨it, hit, rfl⟩ := hp
      exact Or.inl ⟨it, h1 it hit, rfl⟩
    have hne : items.map bulletize ≠ [] := by simpa using h2
    rw [listLines_pipeline hlines hne]
    cases items with
    | nil => exact absurd rfl h2
    | cons it0 rest =>
        rw [List.map_cons, processLines_cons, matchBullet_bulletize (h1 it0 (by simp))]
        dsimp only
        rw [processLines_bullets_true rest (fun z hz => h1 z (by simp [hz]))]
        simp
  · have hlines : ∀ p ∈ items.map bulletize ++ [numberize last],
        (∃ it, goodItem it = true ∧ p = bulletize it) ∨
        (∃ it, goodItem it = true ∧ p = numberize it) := by
      intro p hp
      rcases List.mem_append.1 hp with hp1 | hp2
      · rw [List.mem_map] at hp1
        obtain ⟨it, hit, rfl⟩ := hp1
        exact Or.inl ⟨it, h1 it hit, rfl⟩
      · have : p = numberize last := by simpa using hp2
        exact Or.inr ⟨last, h3, this⟩
    have hne : items.map bulletize ++ [numberize last] ≠ [] := by simp
    rw [listLines_pipeline hlines hne]
    cases items with
    | nil => exact absurd rfl h2
    | cons it0 rest =>
        rw [List.map_cons, List.cons_append, processLines_cons,
          matchBullet_bulletize (h1 it0 (by simp))]
        dsimp only
        rw [processLines_bullets_then_num rest last
          (fun z hz => h1 z (by simp [hz])) h3]
        simp

/-- Witness for `markdown_bullet_run_list_structure` at items `a`, `b`
and numbered line `1. c`. -/
theorem markdown_bullet_run_list_structure_witness :
    (∀ it ∈ [("a".data : List Char), "b".data], goodItem it = true)
    ∧ ([("a".data : List Char), "b".data] ≠ [])
    ∧ goodItem "c".data = true
    ∧ (markdown_to_html (joinSep ['\n'] ([("a".data : List Char), "b".data].map bulletize))
        = joinSep "<br>".data
            (ulOpenTag :: ([("a".data : List Char), "b".data].map liWrap ++ ["</ul>".data]))
      ∧ markdown_to_html
            (joinSep ['\n'] ([("a".data : List Char), "b".data].map bulletize
              ++ [numberize "c".data]))
        = joinSep "<br>".data
            (ulOpenTag :: ([("a".data : List Char), "b".data].map liWrap
              ++ [olOpenTag, liWrap "c".data, "</ul>".data, "</ol>".data]))) :=
  ⟨by decide, by decide, by decide,
   markdown_bullet_run_list_structure ["a".data, "b".data] "c".data
     (by decide) (by decide) (by decide)⟩

/-- The lazy single-delimiter scan closes at the first delimiter after a
delimiter-free, newline-free middle. -/
theorem scanDelim_complete (stop : Char) (hstop : stop ≠ '\n') :
    ∀ (mid acc rest2 : List Char),
      (∀ c ∈ mid, c ≠ stop ∧ c ≠ '\n') → (acc ≠ [] ∨ mid ≠ []) →
      scanDelim stop acc (mid ++ stop :: rest2) = some (acc.reverse ++ mid, rest2) := by
  intro mid
  induction mid with
  | nil =>
      intro acc rest2 _ hne
      have hacc : acc ≠ [] := by
        rcases hne with h | h
        · exact h
        · exact absurd rfl h
      rw [List.nil_append, scanDelim, if_neg hstop, if_pos ⟨rfl, hacc⟩]
      simp
  | cons m ms ih =>
      intro acc rest2 hall hne
      rw [List.cons_append, scanDelim, if_neg (hall m (by simp)).2,
        if_neg (fun hc => (hall m (by simp)).1 hc.1),
        ih (m :: acc) rest2 (fun c hc => hall c (by simp [hc])) (Or.inl (by simp))]
      simp

/-- The lazy bold scan closes at the first `**` after an asterisk-free,
newline-free middle. -/
theorem scanBold_complete :
    ∀ (mid acc rest2 : List Char),
      (∀ c ∈ mid, c ≠ '*' ∧ c ≠ '\n') → (acc ≠ [] ∨ mid ≠ []) →
      scanBold acc (mid ++ '*' :: '*' :: rest2) = some (acc.reverse ++ mid, rest2) := by
  intro mid
  induction mid with
  | nil =>
      intro acc rest2 _ hne
      have hacc : acc ≠ [] := by
        rcases hne with h | h
        · exact h
        · exact absurd rfl h
      rw [List.nil_append, scanBold, if_pos ⟨rfl, rfl, hacc⟩]
      simp
  | cons m ms ih =>
      intro acc rest2 hall hne
      cases ms with
      | nil =>
          rw [List.cons_append, List.nil_append, scanBold,
            if_neg (fun hc => (hall m (by simp)).1 hc.1),
            if_neg (hall m (by simp)).2]
          have := ih (m :: acc) rest2 (by simp) (Or.inl (by simp))
          rw [List.nil_append] at this
          rw [this]
          simp
      | cons m2 ms' =>
          rw [List.cons_append, List.cons_append, scanBold,
            if_neg (fun hc => (hall m (by simp)).1 hc.1),
            if_neg (hall m (by simp)).2]
          have := ih (m :: acc) rest2 (fun c hc => hall c (by simp [hc])) (Or.inl (by simp))
          rw [List.cons_append] at this
          rw [this]
          simp

/-- A substitution pass leaves the empty string empty at any fuel. -/
theorem subDelimF_nil (stop : Char) (o c : List Char) (fuel : Nat) :
    subDelimF stop o c fuel [] = [] := by
  cases fuel <;> rfl

/-- A non-empty break-free string is a single line. -/
theorem splitlines_singleton (l : List Char) (hne : l ≠ [])
    (hnb : ∀ x ∈ l, isLineBreakChar x = false) : splitlines l = [l] := by
  have := splitlines_append_nobreak l [] hne hnb
  simpa [splitlines.eq_1] using this

/-- The bullet regex rejects a line starting with a non-space non-marker
character. -/
theorem matchBullet_none (c : Char) (rest : List Char)
    (h1 : isPySpace c = false) (h2 : ¬(c = '-' ∨ c = '*')) :
    matchBullet (c :: rest) = none := by
  unfold matchBullet
  rw [List.dropWhile_cons, if_neg (by simp [h1])]
  dsimp only
  rw [if_neg h2]

/-- The numbered regex rejects a line starting with a non-space non-digit
character. -/
theorem matchNumbered_none (c : Char) (rest : List Char)
    (h1 : isPySpace c = false) (h2 : Char.isDigit c = false) :
    matchNumbered (c :: rest) = none := by
  have hdw : List.dropWhile isPySpace (c :: rest) = c :: rest := by
    rw [List.dropWhile_cons, if_neg (show ¬(isPySpace c = true) by simp [h1])]
  have htw : List.takeWhile Char.isDigit (c :: rest) = [] := by
    rw [List.takeWhile_cons, if_neg (show ¬(c.isDigit = true) by simp [h2])]
  unfold matchNumbered
  rw [hdw]
  dsimp only
  rw [htw, if_pos (show ([] : List Char).isEmpty = true from rfl)]

/-- A single non-list line passes through the line loop unchanged. -/
theorem processLines_singleton (line : List Char)
    (hb : matchBullet line = none) (hn : matchNumbered line = none) :
    processLines [line] false false = [line] := by
  rw [processLines_cons, hb]
  dsimp only
  rw [hn]
  dsimp only
  rw [processLines_nil]
  simp

/-- C10: a code span does not protect its contents from the later
substitutions.  For every non-empty plain `x`, the input `` `**x**` ``
renders as `<code><b>x</b></code>`: the code pass wraps the span first and
the bold pass then rewrites the `**x**` inside the emitted `<code>`
element. -/
theorem code_span_inner_markup_applied (x : List Char) (hne : x ≠ [])
    (hx : ∀ c ∈ x, plainChar c = true) :
    markdown_to_html ('`' :: '*' :: '*' :: (x ++ ['*', '*', '`']))
      = "<code><b>".data ++ x ++ "</b></code>".data := by
  have hxf : ∀ c ∈ x, c ≠ '&' ∧ c ≠ '<' ∧ c ≠ '>' ∧ c ≠ '`' ∧ c ≠ '*'
      ∧ isLineBreakChar c = false := fun c hc => plainChar_prop (hx c hc)
  have hnlx : ∀ c ∈ x, c ≠ '\n' := by
    intro c hc hcn
    have h5 := (hxf c hc).2.2.2.2.2
    rw [hcn] at h5
    exact absurd h5 (by decide)
  have hmemL : ∀ c ∈ ('`' :: '*' :: '*' :: (x ++ ['*', '*', '`'])),
      c = '`' ∨ c = '*' ∨ c ∈ x := by
    intro c hc
    rcases List.mem_cons.1 hc with rfl | hc1
    · exact Or.inl rfl
    rcases List.mem_cons.1 hc1 with rfl | hc2
    · exact Or.inr (Or.inl rfl)
    rcases List.mem_cons.1 hc2 with rfl | hc3
    · exact Or.inr (Or.inl rfl)
    rcases List.mem_append.1 hc3 with hcx | hcl
    · exact Or.inr (Or.inr hcx)
    rcases List.mem_cons.1 hcl with rfl | hcl2
    · exact Or.inr (Or.inl rfl)
    rcases List.mem_cons.1 hcl2 with rfl | hcl3
    · exact Or.inr (Or.inl rfl)
    rcases List.mem_cons.1 hcl3 with rfl | hcl4
    · exact Or.inl rfl
    · exact absurd hcl4 (List.not_mem_nil c)
  rw [markdown_to_html,
    if_neg (show ¬(('`' :: '*' :: '*' :: (x ++ ['*', '*', '`'])).isEmpty = true) by simp)]
  have hesc : escapeHtml ('`' :: '*' :: '*' :: (x ++ ['*', '*', '`']))
      = '`' :: '*' :: '*' :: (x ++ ['*', '*', '`']) := by
    apply escapeHtml_id
    · intro hm
      rcases hmemL '&' hm with h | h | h
      · exact absurd h (by decide)
      · exact absurd h (by decide)
      · exact absurd rfl (hxf '&' h).1
    · intro hm
      rcases hmemL '<' hm with h | h | h
      · exact absurd h (by decide)
      · exact absurd h (by decide)
      · exact absurd rfl (hxf '<' h).2.1
    · intro hm
      rcases hmemL '>' hm with h | h | h
      · exact absurd h (by decide)
      · exact absurd h (by decide)
      · exact absurd rfl (hxf '>' h).2.2.1
  have hscan : scanDelim '`' [] ('*' :: '*' :: (x ++ ['*', '*', '`']))
      = some ('*' :: '*' :: (x ++ ['*', '*']), []) := by
    have hmid : ∀ c ∈ '*' :: '*' :: (x ++ ['*', '*']), c ≠ '`' ∧ c ≠ '\n' := by
      intro c hc
      rcases List.mem_cons.1 hc with rfl | hc1
      · exact ⟨by decide, by decide⟩
      rcases List.mem_cons.1 hc1 with rfl | hc2
      · exact ⟨by decide, by decide⟩
      rcases List.mem_append.1 hc2 with hcx | hcl
      · exact ⟨(hxf c hcx).2.2.2.1, hnlx c hcx⟩
      rcases List.mem_cons.1 hcl with rfl | hcl2
      · exact ⟨by decide, by decide⟩
      rcases List.mem_cons.1 hcl2 with rfl | hcl3
      · exact ⟨by decide, by decide⟩
      · exact absurd hcl3 (List.not_mem_nil c)
    have h := scanDelim_complete '`' (by decide) ('*' :: '*' :: (x ++ ['*', '*'])) [] []
      hmid (Or.inr (by simp))
    simpa [List.append_assoc] using h
  have hcode : subCode ('`' :: '*' :: '*' :: (x ++ ['*', '*', '`']))
      = "<code>".data ++ (('*' :: '*' :: (x ++ ['*', '*'])) ++ "</code>".data) := by
    show subDelimF '`' "<code>".data "</code>".data _ _ = _
    rw [subDelimW_open_some '`' "<code>".data "</code>".data hscan, subDelimF_nil]
    simp
  have hscanB : scanBold [] (x ++ ('*' :: '*' :: "</code>".data))
      = some (x, "</code>".data) := by
    have h := scanBold_complete x [] "</code>".data
      (fun c hc => ⟨(hxf c hc).2.2.2.2.1, hnlx c hc⟩) (Or.inr hne)
    simpa using h
  have hbold : subBold ("<code>".data ++ (('*' :: '*' :: (x ++ ['*', '*'])) ++ "</code>".data))
      = "<code>".data ++ ("<b>".data ++ x ++ "</b>".data ++ "</code>".data) := by
    have hT2 : ('*' :: '*' :: (x ++ ['*', '*'])) ++ "</code>".data
        = '*' :: '*' :: (x ++ ('*' :: '*' :: "</code>".data)) := by
      simp
    rw [hT2]
    show subBoldF _ _ = _
    rw [subBoldW_transparent "<code>".data _ (by decide)]
    rw [subBoldW_open_some hscanB]
    rw [subBoldW_id "</code>".data (by decide)]
  have hital : subItal ("<code>".data ++ ("<b>".data ++ x ++ "</b>".data ++ "</code>".data))
      = "<code>".data ++ ("<b>".data ++ x ++ "</b>".data ++ "</code>".data) := by
    apply subDelimW_id '*' "<i>".data "</i>".data
    intro c hc
    simp only [List.mem_append] at hc
    rcases hc with hA | (((hB | hx') | hC) | hD)
    · exact (by decide : ∀ c ∈ "<code>".data, c ≠ '*') c hA
    · exact (by decide : ∀ c ∈ "<b>".data, c ≠ '*') c hB
    · exact (hxf c hx').2.2.2.2.1
    · exact (by decide : ∀ c ∈ "</b>".data, c ≠ '*') c hC
    · exact (by decide : ∀ c ∈ "</code>".data, c ≠ '*') c hD
  have hnb3 : ∀ c ∈ ("<code>".data ++ ("<b>".data ++ x ++ "</b>".data ++ "</code>".data)),
      isLineBreakChar c = false := by
    intro c hc
    simp only [List.mem_append] at hc
    rcases hc with hA | (((hB | hx') | hC) | hD)
    · exact (by decide : ∀ c ∈ "<code>".data, isLineBreakChar c = false) c hA
    · exact (by decide : ∀ c ∈ "<b>".data, isLineBreakChar c = false) c hB
    · exact (hxf c hx').2.2.2.2.2
    · exact (by decide : ∀ c ∈ "</b>".data, isLineBreakChar c = false) c hC
    · exact (by decide : ∀ c ∈ "</code>".data, isLineBreakChar c = false) c hD
  have hne3 : ("<code>".data ++ ("<b>".data ++ x ++ "</b>".data ++ "</code>".data)) ≠ [] := by
    intro h
    have h1 := (List.append_eq_nil.1 h).1
    exact absurd h1 (by decide)
  have hsplit := splitlines_singleton _ hne3 hnb3
  have hline : ("<code>".data ++ ("<b>".data ++ x ++ "</b>".data ++ "</code>".data))
      = '<' :: ("code>".data ++ ("<b>".data ++ x ++ "</b>".data ++ "</code>".data)) := rfl
  have hbul : matchBullet ("<code>".data ++ ("<b>".data ++ x ++ "</b>".data ++ "</code>".data))
      = none := by
    rw [hline]
    exact matchBullet_none '<' _ (by decide) (by decide)
  have hnum : matchNumbered ("<code>".data ++ ("<b>".data ++ x ++ "</b>".data ++ "</code>".data))
      = none := by
    rw [hline]
    exact matchNumbered_none '<' _ (by decide) (by decide)
  rw [hesc, hcode, hbold, hital, hsplit, processLines_singleton _ hbul hnum]
  rw [show joinSep "<br>".data
      [("<code>".data ++ ("<b>".data ++ x ++ "</b>".data ++ "</code>".data))]
      = "<code>".data ++ ("<b>".data ++ x ++ "</b>".data ++ "</code>".data) from rfl]
  rw [show ("<code><b>".data : List Char) = "<code>".data ++ "<b>".data from by decide,
    show ("</b></code>".data : List Char) = "</b>".data ++ "</code>".data from by decide]
  simp [List.append_assoc]

/-- Witness for `code_span_inner_markup_applied` at `x = "x"`. -/
theorem code_span_inner_markup_applied_witness :
    (['x'] : List Char) ≠ []
    ∧ (∀ c ∈ (['x'] : List Char), plainChar c = true)
    ∧ markdown_to_html ('`' :: '*' :: '*' :: ((['x'] : List Char) ++ ['*', '*', '`']))
      = "<code><b>".data ++ ['x'] ++ "</b></code>".data :=
  ⟨by decide, by decide, code_span_inner_markup_applied ['x'] (by decide) (by decide)⟩
